import Mathlib

/-!
Shallow embedding of the core of the EvolvingSketch repository.

The embedded components are:
* `EvolvingSketchOptim` (the time-decaying frequency sketch with
  overflow-triggered pruning and the adapter hook) — `Sketch`, `attempt`,
  `updateGo`, `updateSeq`, `estimate`, `prune`, `sketchAdapt`, `maybeAdapt`;
* the decay function `f(t, α) = exp(α·t/10000)` — `decayF`;
* the `WTinyLFUPolicy` constructor's segment capacities — `wtinyWindowCap`,
  `wtinyProbationCap`, `wtinyProtectedCap`;
* the `EpsilonGreedyAdapter` — `EGState`, `egAdapt`, `maxElemIdx`, and the
  `Adapter::operator()` dispatch — `AdapterShell`, `adapterCall`, `adapterRun`,
  and the ε-greedy operator-level model `EGOp`, `egOpCall`, `egOpRun`.

Modelling conventions:
* C++ `float`/`double` values are modelled as real numbers (`ℝ`), except in
  the ε-greedy adapter where all arithmetic that steers control flow is on
  `double` rewards/estimates and is modelled as `ℚ` to keep it executable.
* `size_t` arithmetic wraps modulo `2 ^ 64`; this shows up in
  `altIndex`, where the C++ code computes `seed * 0x5bd1e995` on `size_t`.
* The murmur hash itself is an external, deterministic scalar function; the
  sketch operations are parameterised over an arbitrary `hash : K → ℕ`
  (the theorems hold for every hash function, in particular for murmur2).
* The C++ pseudo-random machinery (`std::mt19937`, `std::random_device`,
  distributions) is standard-library code outside this repository; its draws
  are modelled as explicit oracle inputs to each call (a fresh
  `std::random_device` draw for `disturb_param`, and the member RNG's
  uniform-real and uniform-int draws for `adapt`).
-/

noncomputable section

/-- `PRUNE_THRESHOLD = 16777215.0F` from `EvolvingSketchOptim`. -/
def PRUNE_THRESHOLD : ℝ := 16777215

/-- The MurmurHash2 multiplier `0x5bd1e995` used by `alt_index`. -/
def MUR_C : ℕ := 0x5bd1e995

/-- `std::numeric_limits<float>::max()`, the initial accumulator of
`EvolvingSketchOptim::estimate` (exact value `2^128 - 2^104`). -/
def FLT_MAX : ℝ := 340282346638528859811704183484516925440

/-- State of an `EvolvingSketchOptim` instance: the flattened `d × w` counter
matrix `data_` (row-major, position `i * width + idx` as in the C++ code), the
four row seeds `seeds_`, the time counter `t_`, the decay intensity `alpha_`,
the adaptation interval and counter, and the public reward accumulator `sum`.
Only positions `< 4 * width` and seeds `0..3` are ever used. -/
@[ext]
structure Sketch where
  width : ℕ
  data : ℕ → ℝ
  seeds : ℕ → ℕ
  t : ℕ
  alpha : ℝ
  adaptInterval : ℕ
  adaptCounter : ℕ
  sum : ℝ

/-- Immutable context of a sketch: the hash function, the decay function
`k_f_ : (t, α) ↦ float` and the attached adapter `(reward, α) ↦ α`. -/
structure SketchCtx (K : Type) where
  hash : K → ℕ
  f : ℕ → ℝ → ℝ
  adapter : ℝ → ℝ → ℝ

/-- `EvolvingSketchOptim::alt_index`:
`(index ^ (seed * 0x5bd1e995)) % k_width_`, with the `size_t` product
wrapping modulo `2 ^ 64`. -/
def altIndex (index seed width : ℕ) : ℕ :=
  (index ^^^ (seed * MUR_C % 2 ^ 64)) % width

/-- The chained row indices used by `update` and `estimate`: row 0 is
`hash(item) % k_width_`; row `i+1` is `alt_index(index_i, seeds_[i+1])`. -/
def rowIdx {K : Type} (ctx : SketchCtx K) (s : Sketch) (key : K) : ℕ → ℕ
  | 0 => ctx.hash key % s.width
  | i + 1 => altIndex (rowIdx ctx s key i) (s.seeds (i + 1)) s.width

/-- Flat position of the counter of `key` in row `i`: `pos = i * k_width_ + index`. -/
def position {K : Type} (ctx : SketchCtx K) (s : Sketch) (key : K) (i : ℕ) : ℕ :=
  i * s.width + rowIdx ctx s key i

/-- The increment loop of `EvolvingSketchOptim::update`: for each row in
order, if the cell exceeds `PRUNE_THRESHOLD - increment` stop with the
overflow flag set (the break), otherwise save the original value (the
`counter_positions` / `original_counters` arrays) and add the increment.
Returns the written data, the saved (position, original value) pairs in
write order, and the overflow flag. -/
def incLoop (inc : ℝ) (pos : ℕ → ℕ) :
    List ℕ → (ℕ → ℝ) → List (ℕ × ℝ) → (ℕ → ℝ) × List (ℕ × ℝ) × Bool
  | [], data, saved => (data, saved, false)
  | i :: rest, data, saved =>
    if PRUNE_THRESHOLD - inc < data (pos i) then (data, saved, true)
    else
      incLoop inc pos rest
        (Function.update data (pos i) (data (pos i) + inc))
        (saved ++ [(pos i, data (pos i))])

/-- The rollback loop of `update`: restore each saved position to its saved
original value, in the order they were saved. -/
def rollback : List (ℕ × ℝ) → (ℕ → ℝ) → ℕ → ℝ
  | [], data => data
  | (p, v) :: rest, data => rollback rest (Function.update data p v)

/-- One attempt of `update` (the body between `retry_update:` and the
`goto`): increment `t`, compute the increment `f(t, α)`, run the increment
loop over the four rows; on overflow roll the written cells back and
decrement `t` (so `t` is back to its pre-attempt value), returning the
overflow flag. -/
def attempt {K : Type} (ctx : SketchCtx K) (s : Sketch) (key : K) : Sketch × Bool :=
  let inc := ctx.f (s.t + 1) s.alpha
  let r := incLoop inc (position ctx s key) [0, 1, 2, 3] s.data []
  if r.2.2 then ({ s with data := rollback r.2.1 r.1 }, true)
  else ({ s with data := r.1, t := s.t + 1 }, false)

/-- `EvolvingSketchOptim::prune`: divide every cell of the `4 × w` matrix by
`d = f(t, α)` and reset `t` to `0`. -/
def prune {K : Type} (ctx : SketchCtx K) (s : Sketch) : Sketch :=
  { s with
    data := fun p => if p < 4 * s.width then s.data p / ctx.f s.t s.alpha else s.data p
    t := 0 }

/-- `EvolvingSketchOptim::adapt`: prune first, compute the reward
`sum / adapt_interval`, reset `sum`, replace `alpha` by the adapter's answer,
and reset the adapt counter. -/
def sketchAdapt {K : Type} (ctx : SketchCtx K) (s : Sketch) : Sketch :=
  let s1 := prune ctx s
  { s1 with
    sum := 0
    alpha := ctx.adapter (s1.sum / (s1.adaptInterval : ℝ)) s1.alpha
    adaptCounter := 0 }

/-- The adaptation hook at the end of `update`:
`if (k_adapt_interval_ && ++adapt_counter_ >= k_adapt_interval_) adapt();`.
The counter is incremented only when the interval is nonzero (short-circuit). -/
def maybeAdapt {K : Type} (ctx : SketchCtx K) (s : Sketch) : Sketch :=
  if s.adaptInterval ≠ 0 then
    if s.adaptInterval ≤ s.adaptCounter + 1 then
      sketchAdapt ctx { s with adaptCounter := s.adaptCounter + 1 }
    else { s with adaptCounter := s.adaptCounter + 1 }
  else s

/-- `EvolvingSketchOptim::update` as a fuel-indexed recursion: the
`goto retry_update` loop is modelled by structural recursion on a fuel
argument; `none` means the fuel was exhausted (the C++ loop would still be
retrying). -/
def updateGo {K : Type} (ctx : SketchCtx K) (key : K) : ℕ → Sketch → Option Sketch
  | 0, _ => none
  | fuel + 1, s =>
    let r := attempt ctx s key
    if r.2 then updateGo ctx key fuel (prune ctx r.1)
    else some (maybeAdapt ctx r.1)

/-- A sequence of `update` calls, one per key in the list. -/
def updateSeq {K : Type} (ctx : SketchCtx K) (fuel : ℕ) :
    List K → Sketch → Option Sketch
  | [], s => some s
  | k :: ks, s => (updateGo ctx k fuel s).bind (updateSeq ctx fuel ks)

/-- `EvolvingSketchOptim::estimate`: starting from `float`'s maximum, take
the minimum over the four rows of `data_[pos] / f(t_, alpha_)`. -/
def estimate {K : Type} (ctx : SketchCtx K) (s : Sketch) (key : K) : ℝ :=
  (List.range 4).foldl
    (fun res i => min res (s.data (position ctx s key i) / ctx.f s.t s.alpha))
    FLT_MAX

/-- The decay function used throughout the repository:
`f(t, α) = exp(α · t / 10000)`. -/
def decayF (t : ℕ) (alpha : ℝ) : ℝ := Real.exp (alpha * t / 10000)

/-- `WTinyLFUPolicy` window capacity:
`static_cast<size_t>(static_cast<double>(max_size) * 0.01)`; the `double`
product is modelled as an exact rational and the narrowing cast as the floor
(the values involved are nonnegative). -/
def wtinyWindowCap (maxSize : ℕ) : ℕ := ⌊(maxSize : ℚ) * (1 / 100)⌋₊

/-- `WTinyLFUPolicy` probation capacity:
`(max_size - k_max_window_size_) * 0.2`, truncated to `size_t`. -/
def wtinyProbationCap (maxSize : ℕ) : ℕ :=
  ⌊((maxSize - wtinyWindowCap maxSize : ℕ) : ℚ) * (1 / 5)⌋₊

/-- `WTinyLFUPolicy` protected capacity:
`max_size - k_max_window_size_ - k_max_probation_size_`. -/
def wtinyProtectedCap (maxSize : ℕ) : ℕ :=
  maxSize - wtinyWindowCap maxSize - wtinyProbationCap maxSize

/-- State of an `EpsilonGreedyAdapter`: the number of arms, the exploration
rate `ε`, the step-size rule (`std::variant<double, function>`: either a
constant, or a function of the incremented pull count), the per-arm estimates
and pull counts, and the current arm.  Rewards, estimates and `ε` are
`double`s in the source; they are modelled as rationals here so that the
control flow stays executable.  The arm α values themselves are kept
separately (`ℕ → ℝ`) because the claims only concern which arm is chosen. -/
structure EGState where
  numArms : ℕ
  epsilon : ℚ
  stepRule : Sum ℚ (ℕ → ℚ)
  estimates : ℕ → ℚ
  counts : ℕ → ℕ
  currentArm : ℕ

/-- `std::ranges::max_element` over `estimates_[0..n)`, returning the index:
starts at index 0 and replaces the current best only on a strictly larger
value, so the first occurrence of the maximum wins. -/
def maxElemIdx (est : ℕ → ℚ) (n : ℕ) : ℕ :=
  (List.range n).foldl (fun best i => if est best < est i then i else best) 0

/-- `EpsilonGreedyAdapter::adapt`: update the current arm's estimate by
`Q_a += step * (reward - Q_a)` where `step` is the constant, or the step
function applied to the incremented pull count `++updated_counts_[a]`
(the count is only incremented in the non-constant case, mirroring the
C++ ternary); then with the member RNG draw `u < ε` explore to the uniform
draw `randArm`, else exploit the first-maximal arm. -/
def egAdapt (obj u : ℚ) (randArm : ℕ) (st : EGState) : EGState :=
  let a := st.currentArm
  let newCount := st.counts a + 1
  let step := match st.stepRule with
    | Sum.inl c => c
    | Sum.inr f => f newCount
  let counts' := match st.stepRule with
    | Sum.inl _ => st.counts
    | Sum.inr _ => Function.update st.counts a newCount
  let est' := Function.update st.estimates a
    (st.estimates a + step * (obj - st.estimates a))
  let arm' := if u < st.epsilon then randArm else maxElemIdx est' st.numArms
  { st with estimates := est', counts := counts', currentArm := arm' }

/-- Operator-level state of an `EpsilonGreedyAdapter`: the bandit state plus
the `first_update_` flag of the `Adapter` base class. -/
structure EGOp where
  st : EGState
  firstUpdate : Bool

/-- One `Adapter::operator()` call on an `EpsilonGreedyAdapter`.  On the
first call `disturb_param` runs: it seeds a fresh `std::mt19937` from
`std::random_device{}()` and draws a uniform arm from it — `dev` is that
fresh engine's draw (reduced by the uniform-int distribution, modelled as
`dev % numArms`); the member RNG is not consulted.  On subsequent calls
`adapt` runs, consuming the member RNG draws `u` (uniform-real) and
`randArm` (uniform-int, used only when exploring); `dev` is not consulted.
Returns `arms_[current_arm_]`. -/
def egOpCall (arms : ℕ → ℝ) (dev : ℕ) (u : ℚ) (randArm : ℕ) (obj : ℚ)
    (a : EGOp) : ℝ × EGOp :=
  if a.firstUpdate then
    let arm := dev % a.st.numArms
    (arms arm, ⟨{ a.st with currentArm := arm }, false⟩)
  else
    let st' := egAdapt obj u randArm a.st
    (arms st'.currentArm, ⟨st', a.firstUpdate⟩)

/-- A run of `operator()` calls on an ε-greedy adapter; each call carries its
oracle inputs `(dev, u, randArm, obj)`.  Returns the list of returned α
values and the final state. -/
def egOpRun (arms : ℕ → ℝ) :
    List (ℕ × ℚ × ℕ × ℚ) → EGOp → List ℝ × EGOp
  | [], a => ([], a)
  | (dev, u, randArm, obj) :: rest, a =>
    let r := egOpCall arms dev u randArm obj a
    let rr := egOpRun arms rest r.2
    (r.1 :: rr.1, rr.2)

/-- State of the generic `Adapter<O, P>` base class: the concrete adapter's
own state `inner`, the `first_update_` flag, the remembered last objective
and parameter, the `recording_history_` flag and the recorded history. -/
structure AdapterShell (O P S : Type) where
  inner : S
  firstUpdate : Bool
  lastObj : O
  lastParam : P
  recording : Bool
  history : List (O × P)

/-- `Adapter<O, P>::operator()`: dispatch to `disturb_param` on the first
call and to `adapt` afterwards, append `(obj, new_param)` to the history
when recording is active, remember `(obj, param)`, and return the new
parameter.  The virtual `disturb_param` and `adapt` methods are passed as
state-passing functions. -/
def adapterCall {O P S : Type} (disturb : P → S → P × S)
    (adaptF : O → O → P → P → S → P × S)
    (a : AdapterShell O P S) (obj : O) (param : P) : P × AdapterShell O P S :=
  let r :=
    if a.firstUpdate then
      let d := disturb param a.inner
      (d.1, d.2, false)
    else
      let d := adaptF obj a.lastObj param a.lastParam a.inner
      (d.1, d.2, a.firstUpdate)
  (r.1,
    { inner := r.2.1
      firstUpdate := r.2.2
      lastObj := obj
      lastParam := param
      recording := a.recording
      history := if a.recording then a.history ++ [(obj, r.1)] else a.history })

/-- A run of `Adapter::operator()` calls; returns the returned parameters in
order and the final state. -/
def adapterRun {O P S : Type} (disturb : P → S → P × S)
    (adaptF : O → O → P → P → S → P × S) :
    List (O × P) → AdapterShell O P S → List P × AdapterShell O P S
  | [], a => ([], a)
  | (obj, param) :: rest, a =>
    let r := adapterCall disturb adaptF a obj param
    let rr := adapterRun disturb adaptF rest r.2
    (r.1 :: rr.1, rr.2)

/-! Concrete instances used to witness the theorems below. -/

/-- A concrete context: the identity hash, the repository's decay function,
and an adapter that keeps α unchanged. -/
def ctxStream : SketchCtx ℕ :=
  { hash := fun k => k, f := decayF, adapter := fun _ a => a }

/-- A freshly constructed sketch of width 8 (all counters zero-initialised,
`t = 0`, `α = 1`, adaptation disabled). -/
def zeroSketch : Sketch :=
  { width := 8, data := fun _ => 0, seeds := fun _ => 0, t := 0, alpha := 1,
    adaptInterval := 0, adaptCounter := 0, sum := 0 }

/-- The counter matrix after `k` updates of key 7 on `zeroSketch` under
`ctxStream`: the four row positions of key 7 (7, 15, 23, 31) hold the partial
sum of increments, everything else is zero. -/
def c3Data (k : ℕ) : ℕ → ℝ := fun p =>
  if p = 7 ∨ p = 15 ∨ p = 23 ∨ p = 31 then ∑ j in Finset.range k, decayF (j + 1) 1
  else 0

/-- The sketch state after `k` updates of key 7 on `zeroSketch`. -/
def c3State (k : ℕ) : Sketch := { zeroSketch with data := c3Data k, t := k }

/-- A sketch whose seeds for rows 1..3 are 1 (used to exhibit that row
indices are chained, not all derived from row 0's index). -/
def sketchC4 : Sketch := { zeroSketch with seeds := fun i => if i = 0 then 0 else 1 }

/-- A sketch with adaptation enabled (`adapt_interval = 2`) whose adapt
counter is about to reach the interval. -/
def sketchC6 : Sketch := { zeroSketch with adaptInterval := 2, adaptCounter := 1 }

/-- A concrete two-arm ε-greedy bandit state. -/
def egStateA : EGState :=
  { numArms := 2, epsilon := 1 / 2, stepRule := Sum.inr fun n => 1 / (n : ℚ),
    estimates := fun _ => 0, counts := fun _ => 0, currentArm := 0 }

end

/-! ### Basic lemmas about indices -/

theorem rowIdx_lt {K : Type} (ctx : SketchCtx K) (s : Sketch) (key : K)
    (hw : 0 < s.width) (i : ℕ) : rowIdx ctx s key i < s.width := by
  cases i with
  | zero => exact Nat.mod_lt _ hw
  | succ n => exact Nat.mod_lt _ hw

theorem position_lt_of_lt {K : Type} (ctx : SketchCtx K) (s : Sketch) (key : K)
    (hw : 0 < s.width) {i j : ℕ} (hij : i < j) :
    position ctx s key i < position ctx s key j := by
  have h1 : position ctx s key i < (i + 1) * s.width := by
    have := rowIdx_lt ctx s key hw i
    simp only [position, Nat.succ_mul]
    omega
  have h2 : (i + 1) * s.width ≤ j * s.width := Nat.mul_le_mul_right _ hij
  have h3 : j * s.width ≤ position ctx s key j := Nat.le_add_right _ _
  omega

theorem position_lt_four_mul {K : Type} (ctx : SketchCtx K) (s : Sketch) (key : K)
    (hw : 0 < s.width) {i : ℕ} (hi : i < 4) :
    position ctx s key i < 4 * s.width := by
  have h1 := rowIdx_lt ctx s key hw i
  have h2 : i * s.width + s.width ≤ 4 * s.width := by
    have : (i + 1) * s.width ≤ 4 * s.width := Nat.mul_le_mul_right _ hi
    simpa [Nat.succ_mul] using this
  simp only [position]
  omega

theorem positions_nodup {K : Type} (ctx : SketchCtx K) (s : Sketch) (key : K)
    (hw : 0 < s.width) :
    (([0, 1, 2, 3] : List ℕ).map (position ctx s key)).Nodup := by
  have h : ∀ {i j : ℕ}, i < j → position ctx s key i ≠ position ctx s key j :=
    fun hij => (position_lt_of_lt ctx s key hw hij).ne
  have h01 := h (show (0 : ℕ) < 1 by norm_num)
  have h02 := h (show (0 : ℕ) < 2 by norm_num)
  have h03 := h (show (0 : ℕ) < 3 by norm_num)
  have h12 := h (show (1 : ℕ) < 2 by norm_num)
  have h13 := h (show (1 : ℕ) < 3 by norm_num)
  have h23 := h (show (2 : ℕ) < 3 by norm_num)
  simp [List.nodup_cons, h01, h02, h03, h12, h13, h23]

theorem rowIdx_congr {K : Type} (ctx : SketchCtx K) {s s' : Sketch} (key : K)
    (hwidth : s'.width = s.width) (hseeds : s'.seeds = s.seeds) (i : ℕ) :
    rowIdx ctx s' key i = rowIdx ctx s key i := by
  induction i with
  | zero => simp [rowIdx, hwidth]
  | succ n ih => simp [rowIdx, altIndex, hwidth, hseeds, ih]

theorem position_congr {K : Type} (ctx : SketchCtx K) {s s' : Sketch} (key : K)
    (hwidth : s'.width = s.width) (hseeds : s'.seeds = s.seeds) (i : ℕ) :
    position ctx s' key i = position ctx s key i := by
  simp [position, hwidth, rowIdx_congr ctx key hwidth hseeds]

/-! ### Lemmas about the increment loop and rollback -/

theorem incLoop_saved (inc : ℝ) (pos : ℕ → ℕ) (l : List ℕ) :
    ∀ (data : ℕ → ℝ) (saved : List (ℕ × ℝ)),
    incLoop inc pos l data saved =
      ((incLoop inc pos l data []).1,
        saved ++ (incLoop inc pos l data []).2.1,
        (incLoop inc pos l data []).2.2) := by
  induction l with
  | nil => intro data saved; simp [incLoop]
  | cons i rest ih =>
    intro data saved
    by_cases h : PRUNE_THRESHOLD - inc < data (pos i)
    · simp [incLoop, h]
    · simp only [incLoop, if_neg h, List.nil_append]
      rw [ih (Function.update data (pos i) (data (pos i) + inc))
            (saved ++ [(pos i, data (pos i))]),
          ih (Function.update data (pos i) (data (pos i) + inc))
            [(pos i, data (pos i))]]
      simp

theorem rollback_append (xs ys : List (ℕ × ℝ)) (data : ℕ → ℝ) :
    rollback (xs ++ ys) data = rollback ys (rollback xs data) := by
  induction xs generalizing data with
  | nil => simp [rollback]
  | cons e rest ih => cases e; simp [rollback, ih]

theorem rollback_comm (sv : List (ℕ × ℝ)) (p : ℕ) (v : ℝ) :
    ∀ (data : ℕ → ℝ), (∀ e ∈ sv, e.1 ≠ p) →
    rollback sv (Function.update data p v) =
      Function.update (rollback sv data) p v := by
  induction sv with
  | nil => intro data _; simp [rollback]
  | cons e rest ih =>
    intro data hne
    cases e with
    | mk q w =>
      have hq : q ≠ p := hne (q, w) (List.mem_cons_self _ _)
      simp only [rollback]
      rw [Function.update_comm (Ne.symm hq)]
      exact ih _ fun e he => hne e (List.mem_cons_of_mem _ he)

theorem incLoop_saved_pos (inc : ℝ) (pos : ℕ → ℕ) (l : List ℕ) :
    ∀ (data : ℕ → ℝ), ∀ e ∈ (incLoop inc pos l data []).2.1, e.1 ∈ l.map pos := by
  induction l with
  | nil => intro data e he; simp [incLoop] at he
  | cons i rest ih =>
    intro data e he
    by_cases h : PRUNE_THRESHOLD - inc < data (pos i)
    · simp [incLoop, h] at he
    · simp only [incLoop, if_neg h] at he
      rw [incLoop_saved] at he
      simp only [List.cons_append, List.nil_append] at he
      rcases List.mem_cons.mp he with h1 | h2
      · subst h1; simp
      · exact List.mem_cons_of_mem _ (ih _ e h2)

theorem incLoop_rollback (inc : ℝ) (pos : ℕ → ℕ) (l : List ℕ) :
    ∀ (data : ℕ → ℝ), (l.map pos).Nodup →
    (incLoop inc pos l data []).2.2 = true →
    rollback (incLoop inc pos l data []).2.1 (incLoop inc pos l data []).1 = data := by
  induction l with
  | nil => intro data _ hov; simp [incLoop] at hov
  | cons i rest ih =>
    intro data hnd hov
    by_cases h : PRUNE_THRESHOLD - inc < data (pos i)
    · simp [incLoop, h, rollback]
    · simp only [incLoop, if_neg h] at hov ⊢
      rw [incLoop_saved] at hov ⊢
      simp only [List.cons_append, List.nil_append] at hov ⊢
      set data1 := Function.update data (pos i) (data (pos i) + inc) with hdata1
      simp only [List.map, List.nodup_cons] at hnd
      have hnotin : ∀ e ∈ (incLoop inc pos rest data1 []).2.1, e.1 ≠ pos i := by
        intro e he
        intro hcontra
        exact hnd.1 (hcontra ▸ incLoop_saved_pos inc pos rest data1 e he)
      have hib := ih data1 hnd.2 (by simpa using hov)
      simp only [rollback]
      rw [rollback_comm _ _ _ _ hnotin, hib, hdata1]
      rw [Function.update_idem, Function.update_eq_self]

theorem incLoop_success (inc : ℝ) (pos : ℕ → ℕ) (l : List ℕ) :
    ∀ (data : ℕ → ℝ), (l.map pos).Nodup →
    (incLoop inc pos l data []).2.2 = false →
    (∀ i ∈ l, (incLoop inc pos l data []).1 (pos i) = data (pos i) + inc) ∧
    (∀ p, p ∉ l.map pos → (incLoop inc pos l data []).1 p = data p) := by
  induction l with
  | nil => intro data _ _; simp [incLoop]
  | cons i rest ih =>
    intro data hnd hsucc
    by_cases h : PRUNE_THRESHOLD - inc < data (pos i)
    · simp [incLoop, h] at hsucc
    · simp only [incLoop, if_neg h] at hsucc ⊢
      rw [incLoop_saved] at hsucc ⊢
      simp only at hsucc
      set data1 := Function.update data (pos i) (data (pos i) + inc) with hdata1
      simp only [List.map, List.nodup_cons] at hnd
      have hib := ih data1 hnd.2 hsucc
      constructor
      · intro j hj
        rcases List.mem_cons.mp hj with rfl | hjrest
        · have : pos j ∉ rest.map pos := hnd.1
          rw [hib.2 (pos j) this, hdata1, Function.update_same]
        · rw [hib.1 j hjrest, hdata1]
          have : pos j ≠ pos i := by
            intro hc
            exact hnd.1 (hc ▸ List.mem_map_of_mem pos hjrest)
          rw [Function.update_noteq this]
      · intro p hp
        simp only [List.map, List.mem_cons, not_or] at hp
        rw [hib.2 p (by simpa using hp.2), hdata1, Function.update_noteq hp.1]

theorem incLoop_success_iff (inc : ℝ) (pos : ℕ → ℕ) (l : List ℕ) :
    ∀ (data : ℕ → ℝ), (l.map pos).Nodup →
    ((incLoop inc pos l data []).2.2 = false ↔
      ∀ i ∈ l, ¬(PRUNE_THRESHOLD - inc < data (pos i))) := by
  induction l with
  | nil => intro data _; simp [incLoop]
  | cons i rest ih =>
    intro data hnd
    by_cases h : PRUNE_THRESHOLD - inc < data (pos i)
    · simp only [incLoop, if_pos h]
      simp [h]
    · simp only [incLoop, if_neg h]
      rw [incLoop_saved]
      simp only [List.map, List.nodup_cons] at hnd
      set data1 := Function.update data (pos i) (data (pos i) + inc) with hdata1
      have hsame : ∀ j ∈ rest, data1 (pos j) = data (pos j) := by
        intro j hj
        have : pos j ≠ pos i := by
          intro hc
          exact hnd.1 (hc ▸ List.mem_map_of_mem pos hj)
        rw [hdata1, Function.update_noteq this]
      constructor
      · intro hsucc j hj
        rcases List.mem_cons.mp hj with rfl | hjrest
        · exact h
        · have := (ih data1 hnd.2).mp hsucc j hjrest
          rwa [hsame j hjrest] at this
      · intro hall
        refine (ih data1 hnd.2).mpr fun j hj => ?_
        rw [hsame j hj]
        exact hall j (List.mem_cons_of_mem _ hj)

theorem incLoop_range (inc : ℝ) (pos : ℕ → ℕ) (l : List ℕ) (hinc : 0 ≤ inc) :
    ∀ (data : ℕ → ℝ) (saved : List (ℕ × ℝ)),
    (∀ p, 0 ≤ data p ∧ data p ≤ PRUNE_THRESHOLD) →
    (∀ e ∈ saved, 0 ≤ e.2 ∧ e.2 ≤ PRUNE_THRESHOLD) →
    (∀ p, 0 ≤ (incLoop inc pos l data saved).1 p ∧
      (incLoop inc pos l data saved).1 p ≤ PRUNE_THRESHOLD) ∧
    (∀ e ∈ (incLoop inc pos l data saved).2.1, 0 ≤ e.2 ∧ e.2 ≤ PRUNE_THRESHOLD) := by
  induction l with
  | nil => intro data saved hdata hsaved; exact ⟨hdata, hsaved⟩
  | cons i rest ih =>
    intro data saved hdata hsaved
    by_cases h : PRUNE_THRESHOLD - inc < data (pos i)
    · simp only [incLoop, if_pos h]
      exact ⟨hdata, hsaved⟩
    · simp only [incLoop, if_neg h]
      refine ih _ _ ?_ ?_
      · intro p
        by_cases hpi : p = pos i
        · rw [hpi, Function.update_same]
          have h0 := (hdata (pos i)).1
          push_neg at h
          constructor <;> linarith
        · rw [Function.update_noteq hpi]
          exact hdata p
      · intro e he
        rcases List.mem_append.mp he with h1 | h2
        · exact hsaved e h1
        · simp only [List.mem_singleton] at h2
          subst h2
          exact hdata (pos i)

theorem rollback_range (sv : List (ℕ × ℝ)) :
    ∀ (data : ℕ → ℝ),
    (∀ p, 0 ≤ data p ∧ data p ≤ PRUNE_THRESHOLD) →
    (∀ e ∈ sv, 0 ≤ e.2 ∧ e.2 ≤ PRUNE_THRESHOLD) →
    ∀ p, 0 ≤ rollback sv data p ∧ rollback sv data p ≤ PRUNE_THRESHOLD := by
  induction sv with
  | nil => intro data hdata _; exact hdata
  | cons e rest ih =>
    intro data hdata hsv
    cases e with
    | mk q w =>
      simp only [rollback]
      refine ih _ ?_ fun e he => hsv e (List.mem_cons_of_mem _ he)
      intro p
      by_cases hpq : p = q
      · subst hpq
        rw [Function.update_same]
        exact hsv (p, w) (List.mem_cons_self _ _)
      · rw [Function.update_noteq hpq]
        exact hdata p

/-! ### Lemmas about a single update attempt -/

theorem attempt_preserves {K : Type} (ctx : SketchCtx K) (s : Sketch) (key : K) :
    (attempt ctx s key).1.width = s.width ∧ (attempt ctx s key).1.seeds = s.seeds ∧
    (attempt ctx s key).1.alpha = s.alpha ∧
    (attempt ctx s key).1.adaptInterval = s.adaptInterval ∧
    (attempt ctx s key).1.adaptCounter = s.adaptCounter ∧
    (attempt ctx s key).1.sum = s.sum := by
  simp only [attempt]
  split <;> simp

theorem attempt_overflow_eq {K : Type} (ctx : SketchCtx K) (s : Sketch) (key : K)
    (hw : 0 < s.width) (hov : (attempt ctx s key).2 = true) :
    (attempt ctx s key).1 = s := by
  have hnd := positions_nodup ctx s key hw
  simp only [attempt] at hov ⊢
  by_cases hc : (incLoop (ctx.f (s.t + 1) s.alpha) (position ctx s key)
      [0, 1, 2, 3] s.data []).2.2 = true
  · rw [if_pos hc]
    have hrb := incLoop_rollback (ctx.f (s.t + 1) s.alpha) (position ctx s key)
      [0, 1, 2, 3] s.data hnd hc
    show ({ s with data := rollback _ _ } : Sketch) = s
    rw [hrb]
  · rw [if_neg hc] at hov
    simp at hov

theorem attempt_t_of_success {K : Type} (ctx : SketchCtx K) (s : Sketch) (key : K)
    (hsucc : (attempt ctx s key).2 = false) : (attempt ctx s key).1.t = s.t + 1 := by
  simp only [attempt] at hsucc ⊢
  by_cases hc : (incLoop (ctx.f (s.t + 1) s.alpha) (position ctx s key)
      [0, 1, 2, 3] s.data []).2.2 = true
  · rw [if_pos hc] at hsucc
    simp at hsucc
  · rw [if_neg hc]

theorem attempt_success_data {K : Type} (ctx : SketchCtx K) (s : Sketch) (key : K)
    (hw : 0 < s.width) (hsucc : (attempt ctx s key).2 = false) :
    (∀ i ∈ ([0, 1, 2, 3] : List ℕ),
      (attempt ctx s key).1.data (position ctx s key i) =
        s.data (position ctx s key i) + ctx.f (s.t + 1) s.alpha) ∧
    (∀ p, p ∉ ([0, 1, 2, 3] : List ℕ).map (position ctx s key) →
      (attempt ctx s key).1.data p = s.data p) := by
  have hnd := positions_nodup ctx s key hw
  simp only [attempt] at hsucc ⊢
  by_cases hc : (incLoop (ctx.f (s.t + 1) s.alpha) (position ctx s key)
      [0, 1, 2, 3] s.data []).2.2 = true
  · rw [if_pos hc] at hsucc
    simp at hsucc
  · rw [if_neg hc]
    have := incLoop_success (ctx.f (s.t + 1) s.alpha) (position ctx s key)
      [0, 1, 2, 3] s.data hnd (Bool.eq_false_iff.mpr hc)
    exact this

theorem attempt_success_iff_guards {K : Type} (ctx : SketchCtx K) (s : Sketch) (key : K)
    (hw : 0 < s.width) :
    ((attempt ctx s key).2 = false ↔
      ∀ i ∈ ([0, 1, 2, 3] : List ℕ),
        ¬(PRUNE_THRESHOLD - ctx.f (s.t + 1) s.alpha < s.data (position ctx s key i))) := by
  have hnd := positions_nodup ctx s key hw
  have hiff := incLoop_success_iff (ctx.f (s.t + 1) s.alpha) (position ctx s key)
    [0, 1, 2, 3] s.data hnd
  simp only [attempt]
  by_cases hc : (incLoop (ctx.f (s.t + 1) s.alpha) (position ctx s key)
      [0, 1, 2, 3] s.data []).2.2 = true
  · rw [if_pos hc]
    constructor
    · intro h
      simp at h
    · intro hall
      have hfalse := hiff.mpr hall
      rw [hc] at hfalse
      simp at hfalse
  · rw [if_neg hc]
    constructor
    · intro _
      exact hiff.mp (Bool.eq_false_iff.mpr hc)
    · intro _
      rfl

theorem attempt_range {K : Type} (ctx : SketchCtx K) (s : Sketch) (key : K)
    (hinc : 0 ≤ ctx.f (s.t + 1) s.alpha)
    (hdata : ∀ p, 0 ≤ s.data p ∧ s.data p ≤ PRUNE_THRESHOLD) :
    ∀ p, 0 ≤ (attempt ctx s key).1.data p ∧
      (attempt ctx s key).1.data p ≤ PRUNE_THRESHOLD := by
  have hr := incLoop_range (ctx.f (s.t + 1) s.alpha) (position ctx s key)
    [0, 1, 2, 3] hinc s.data [] hdata (by simp)
  simp only [attempt]
  by_cases hc : (incLoop (ctx.f (s.t + 1) s.alpha) (position ctx s key)
      [0, 1, 2, 3] s.data []).2.2 = true
  · rw [if_pos hc]
    exact rollback_range _ _ hr.1 hr.2
  · rw [if_neg hc]
    exact hr.1

/-! ### Lemmas about prune, adapt and the update recursion -/

theorem prune_fields {K : Type} (ctx : SketchCtx K) (s : Sketch) :
    (prune ctx s).width = s.width ∧ (prune ctx s).seeds = s.seeds ∧
    (prune ctx s).alpha = s.alpha ∧ (prune ctx s).adaptInterval = s.adaptInterval ∧
    (prune ctx s).adaptCounter = s.adaptCounter ∧ (prune ctx s).sum = s.sum ∧
    (prune ctx s).t = 0 := by
  simp [prune]

theorem prune_eq_self {K : Type} (ctx : SketchCtx K) (s : Sketch)
    (ht : s.t = 0) (hf1 : ctx.f s.t s.alpha = 1) : prune ctx s = s := by
  have hd : (fun p => if p < 4 * s.width then s.data p / ctx.f s.t s.alpha
      else s.data p) = s.data := by
    funext p
    rw [hf1, div_one]
    split <;> rfl
  show ({ s with data := _, t := 0 } : Sketch) = s
  rw [hd, ← ht]

theorem maybeAdapt_zero {K : Type} (ctx : SketchCtx K) (s : Sketch)
    (h : s.adaptInterval = 0) : maybeAdapt ctx s = s := by
  simp [maybeAdapt, h]

theorem maybeAdapt_fields {K : Type} (ctx : SketchCtx K) (s : Sketch) :
    (maybeAdapt ctx s).width = s.width ∧ (maybeAdapt ctx s).seeds = s.seeds ∧
    (maybeAdapt ctx s).adaptInterval = s.adaptInterval := by
  simp only [maybeAdapt, sketchAdapt, prune]
  split <;> [skip; simp]
  split <;> simp

theorem updateGo_none_of_stuck {K : Type} (ctx : SketchCtx K) (key : K) (s : Sketch)
    (hov : (attempt ctx s key).2 = true) (hp : prune ctx (attempt ctx s key).1 = s) :
    ∀ fuel, updateGo ctx key fuel s = none := by
  intro fuel
  induction fuel with
  | zero => rfl
  | succ n ih =>
    simp only [updateGo, hov, if_pos, hp]
    exact ih

theorem updateGo_preserves {K : Type} (ctx : SketchCtx K) (key : K) :
    ∀ (fuel : ℕ) (s s' : Sketch), updateGo ctx key fuel s = some s' →
    s'.width = s.width ∧ s'.seeds = s.seeds ∧ s'.adaptInterval = s.adaptInterval ∧
    (s.adaptInterval = 0 →
      s'.alpha = s.alpha ∧ s'.sum = s.sum ∧ s'.adaptCounter = s.adaptCounter) := by
  intro fuel
  induction fuel with
  | zero => intro s s' h; simp [updateGo] at h
  | succ n ih =>
    intro s s' h
    by_cases hov : (attempt ctx s key).2 = true
    · simp only [updateGo, hov, if_pos] at h
      have hrec := ih _ _ h
      have ha := attempt_preserves ctx s key
      have hp := prune_fields ctx (attempt ctx s key).1
      refine ⟨?_, ?_, ?_, ?_⟩
      · rw [hrec.1, hp.1, ha.1]
      · rw [hrec.2.1, hp.2.1, ha.2.1]
      · rw [hrec.2.2.1, hp.2.2.2.1, ha.2.2.2.1]
      · intro h0
        have h0' : (prune ctx (attempt ctx s key).1).adaptInterval = 0 := by
          rw [hp.2.2.2.1, ha.2.2.2.1, h0]
        have := hrec.2.2.2 h0'
        refine ⟨?_, ?_, ?_⟩
        · rw [this.1, hp.2.2.1, ha.2.2.1]
        · rw [this.2.1, hp.2.2.2.2.2.1, ha.2.2.2.2.2]
        · rw [this.2.2, hp.2.2.2.2.1, ha.2.2.2.2.1]
    · have hsucc : (attempt ctx s key).2 = false := Bool.eq_false_iff.mpr hov
      simp only [updateGo, hsucc] at h
      simp only [Bool.false_eq_true, if_false, Option.some.injEq] at h
      subst h
      have ha := attempt_preserves ctx s key
      have hm := maybeAdapt_fields ctx (attempt ctx s key).1
      refine ⟨?_, ?_, ?_, ?_⟩
      · rw [hm.1, ha.1]
      · rw [hm.2.1, ha.2.1]
      · rw [hm.2.2, ha.2.2.2.1]
      · intro h0
        have h0' : (attempt ctx s key).1.adaptInterval = 0 := by rw [ha.2.2.2.1, h0]
        rw [maybeAdapt_zero ctx _ h0']
        exact ⟨ha.2.2.1, ha.2.2.2.2.2, ha.2.2.2.2.1⟩

theorem updateGo_t {K : Type} (ctx : SketchCtx K) (key : K)
    (hf0 : ∀ a, ctx.f 0 a = 1) :
    ∀ (fuel : ℕ) (s s' : Sketch), 0 < s.width → s.adaptInterval = 0 →
    updateGo ctx key fuel s = some s' →
    s'.t ≤ s.t + 1 ∧
    (s'.t = s.t + 1 → (attempt ctx s key).2 = false ∧ s' = (attempt ctx s key).1) := by
  intro fuel
  induction fuel with
  | zero => intro s s' _ _ h; simp [updateGo] at h
  | succ n ih =>
    intro s s' hw h0 h
    by_cases hov : (attempt ctx s key).2 = true
    · simp only [updateGo, hov, if_pos] at h
      have ha := attempt_preserves ctx s key
      have hp := prune_fields ctx (attempt ctx s key).1
      have hw2 : 0 < (prune ctx (attempt ctx s key).1).width := by
        rw [hp.1, ha.1]; exact hw
      have h02 : (prune ctx (attempt ctx s key).1).adaptInterval = 0 := by
        rw [hp.2.2.2.1, ha.2.2.2.1]; exact h0
      have hrec := ih _ _ hw2 h02 h
      have ht2 : (prune ctx (attempt ctx s key).1).t = 0 := hp.2.2.2.2.2.2
      have hle : s'.t ≤ 1 := by
        have := hrec.1
        rw [ht2] at this
        omega
      refine ⟨by omega, fun heq => ?_⟩
      have hst : s.t = 0 := by omega
      have hroll := attempt_overflow_eq ctx s key hw hov
      have hps : prune ctx (attempt ctx s key).1 = s := by
        rw [hroll]
        refine prune_eq_self ctx s hst ?_
        rw [hst]
        exact hf0 s.alpha
      rw [hps] at h
      have hnone := updateGo_none_of_stuck ctx key s hov hps n
      rw [h] at hnone
      simp at hnone
    · have hsucc : (attempt ctx s key).2 = false := Bool.eq_false_iff.mpr hov
      simp only [updateGo, hsucc] at h
      simp only [Bool.false_eq_true, if_false, Option.some.injEq] at h
      have ha := attempt_preserves ctx s key
      have h0' : (attempt ctx s key).1.adaptInterval = 0 := by
        rw [ha.2.2.2.1]; exact h0
      rw [maybeAdapt_zero ctx _ h0'] at h
      subst h
      have ht := attempt_t_of_success ctx s key hsucc
      exact ⟨le_of_eq ht, fun _ => ⟨hsucc, rfl⟩⟩

theorem updateSeq_append {K : Type} (ctx : SketchCtx K) (fuel : ℕ) (l1 l2 : List K) :
    ∀ s, updateSeq ctx fuel (l1 ++ l2) s =
      (updateSeq ctx fuel l1 s).bind (updateSeq ctx fuel l2) := by
  induction l1 with
  | nil => intro s; simp [updateSeq]
  | cons k ks ih =>
    intro s
    simp only [List.cons_append, updateSeq]
    cases updateGo ctx k fuel s with
    | none => simp
    | some s1 => simp [ih s1]

theorem updateSeq_preserves {K : Type} (ctx : SketchCtx K) (fuel : ℕ) :
    ∀ (keys : List K) (s s' : Sketch), updateSeq ctx fuel keys s = some s' →
    s'.width = s.width ∧ s'.seeds = s.seeds ∧ s'.adaptInterval = s.adaptInterval ∧
    (s.adaptInterval = 0 → s'.alpha = s.alpha) := by
  intro keys
  induction keys with
  | nil =>
    intro s s' h
    simp only [updateSeq, Option.some.injEq] at h
    subst h
    exact ⟨rfl, rfl, rfl, fun _ => rfl⟩
  | cons k ks ih =>
    intro s s' h
    simp only [updateSeq] at h
    cases hgo : updateGo ctx k fuel s with
    | none => rw [hgo] at h; simp at h
    | some s1 =>
      rw [hgo] at h
      rw [Option.some_bind] at h
      have h1 := updateGo_preserves ctx k fuel s s1 hgo
      have h2 := ih s1 s' h
      refine ⟨by rw [h2.1, h1.1], by rw [h2.2.1, h1.2.1], by rw [h2.2.2.1, h1.2.2.1], ?_⟩
      intro h0
      have h0' : s1.adaptInterval = 0 := by rw [h1.2.2.1]; exact h0
      rw [h2.2.2.2 h0', (h1.2.2.2 h0).1]

theorem updateSeq_t_le {K : Type} (ctx : SketchCtx K) (fuel : ℕ)
    (hf0 : ∀ a, ctx.f 0 a = 1) :
    ∀ (keys : List K) (s s' : Sketch), 0 < s.width → s.adaptInterval = 0 →
    updateSeq ctx fuel keys s = some s' → s'.t ≤ s.t + keys.length := by
  intro keys
  induction keys with
  | nil =>
    intro s s' _ _ h
    simp only [updateSeq, Option.some.injEq] at h
    subst h
    simp
  | cons k ks ih =>
    intro s s' hw h0 h
    simp only [updateSeq] at h
    cases hgo : updateGo ctx k fuel s with
    | none => rw [hgo] at h; simp at h
    | some s1 =>
      rw [hgo] at h
      rw [Option.some_bind] at h
      have h1 := updateGo_preserves ctx k fuel s s1 hgo
      have ht1 := (updateGo_t ctx k hf0 fuel s s1 hw h0 hgo).1
      have hw1 : 0 < s1.width := by rw [h1.1]; exact hw
      have h01 : s1.adaptInterval = 0 := by rw [h1.2.2.1]; exact h0
      have := ih s1 s' hw1 h01 h
      simp only [List.length_cons]
      omega

/-! ### The counter-range invariant -/

theorem prune_range {K : Type} (ctx : SketchCtx K) (s : Sketch) (hf : ctx.f = decayF)
    (halpha : 0 < s.alpha)
    (hdata : ∀ p, 0 ≤ s.data p ∧ s.data p ≤ PRUNE_THRESHOLD) :
    ∀ p, 0 ≤ (prune ctx s).data p ∧ (prune ctx s).data p ≤ PRUNE_THRESHOLD := by
  intro p
  have hd : 1 ≤ ctx.f s.t s.alpha := by
    rw [hf]
    refine Real.one_le_exp ?_
    positivity
  simp only [prune]
  split
  · constructor
    · exact div_nonneg (hdata p).1 (le_trans zero_le_one hd)
    · exact le_trans (div_le_self (hdata p).1 hd) (hdata p).2
  · exact hdata p

theorem maybeAdapt_inv {K : Type} (ctx : SketchCtx K) (s : Sketch) (hf : ctx.f = decayF)
    (hpos : s.adaptInterval = 0 ∨ ∀ r a, 0 < a → 0 < ctx.adapter r a)
    (halpha : 0 < s.alpha)
    (hdata : ∀ p, 0 ≤ s.data p ∧ s.data p ≤ PRUNE_THRESHOLD) :
    0 < (maybeAdapt ctx s).alpha ∧
    ∀ p, 0 ≤ (maybeAdapt ctx s).data p ∧ (maybeAdapt ctx s).data p ≤ PRUNE_THRESHOLD := by
  by_cases h0 : s.adaptInterval = 0
  · rw [maybeAdapt_zero ctx s h0]
    exact ⟨halpha, hdata⟩
  · have hadapter : ∀ r a, 0 < a → 0 < ctx.adapter r a := by
      rcases hpos with h | h
      · exact absurd h h0
      · exact h
    simp only [maybeAdapt, if_pos h0]
    split
    · constructor
      · exact hadapter _ _ halpha
      · exact prune_range ctx _ hf halpha hdata
    · exact ⟨halpha, hdata⟩

theorem updateGo_inv {K : Type} (ctx : SketchCtx K) (key : K) (hf : ctx.f = decayF) :
    ∀ (fuel : ℕ) (s s' : Sketch),
    (s.adaptInterval = 0 ∨ ∀ r a, 0 < a → 0 < ctx.adapter r a) →
    0 < s.alpha →
    (∀ p, 0 ≤ s.data p ∧ s.data p ≤ PRUNE_THRESHOLD) →
    updateGo ctx key fuel s = some s' →
    0 < s'.alpha ∧ ∀ p, 0 ≤ s'.data p ∧ s'.data p ≤ PRUNE_THRESHOLD := by
  intro fuel
  induction fuel with
  | zero => intro s s' _ _ _ h; simp [updateGo] at h
  | succ n ih =>
    intro s s' hpos halpha hdata h
    have hinc : 0 ≤ ctx.f (s.t + 1) s.alpha := by
      rw [hf]
      exact le_of_lt (Real.exp_pos _)
    have hrange := attempt_range ctx s key hinc hdata
    have ha := attempt_preserves ctx s key
    by_cases hov : (attempt ctx s key).2 = true
    · simp only [updateGo, hov, if_pos] at h
      have hp := prune_fields ctx (attempt ctx s key).1
      refine ih _ _ ?_ ?_ ?_ h
      · rw [hp.2.2.2.1, ha.2.2.2.1]
        exact hpos
      · rw [hp.2.2.1, ha.2.2.1]
        exact halpha
      · refine prune_range ctx _ hf ?_ hrange
        rw [ha.2.2.1]
        exact halpha
    · have hsucc : (attempt ctx s key).2 = false := Bool.eq_false_iff.mpr hov
      simp only [updateGo, hsucc] at h
      simp only [Bool.false_eq_true, if_false, Option.some.injEq] at h
      subst h
      refine maybeAdapt_inv ctx _ hf ?_ ?_ hrange
      · rw [ha.2.2.2.1]
        exact hpos
      · rw [ha.2.2.1]
        exact halpha

theorem updateSeq_inv {K : Type} (ctx : SketchCtx K) (fuel : ℕ) (hf : ctx.f = decayF) :
    ∀ (keys : List K) (s s' : Sketch),
    (s.adaptInterval = 0 ∨ ∀ r a, 0 < a → 0 < ctx.adapter r a) →
    0 < s.alpha →
    (∀ p, 0 ≤ s.data p ∧ s.data p ≤ PRUNE_THRESHOLD) →
    updateSeq ctx fuel keys s = some s' →
    0 < s'.alpha ∧ ∀ p, 0 ≤ s'.data p ∧ s'.data p ≤ PRUNE_THRESHOLD := by
  intro keys
  induction keys with
  | nil =>
    intro s s' _ halpha hdata h
    simp only [updateSeq, Option.some.injEq] at h
    subst h
    exact ⟨halpha, hdata⟩
  | cons k ks ih =>
    intro s s' hpos halpha hdata h
    simp only [updateSeq] at h
    cases hgo : updateGo ctx k fuel s with
    | none => rw [hgo] at h; simp at h
    | some s1 =>
      rw [hgo] at h
      rw [Option.some_bind] at h
      have h1 := updateGo_inv ctx k hf fuel s s1 hpos halpha hdata hgo
      have hpr := updateGo_preserves ctx k fuel s s1 hgo
      refine ih s1 s' ?_ h1.1 h1.2 h
      rw [hpr.2.2.1]
      exact hpos

/-! ### Estimate lemmas -/

theorem estimate_eq_min {K : Type} (ctx : SketchCtx K) (s : Sketch) (key : K) :
    estimate ctx s key =
      min (min (min (min FLT_MAX (s.data (position ctx s key 0) / ctx.f s.t s.alpha))
            (s.data (position ctx s key 1) / ctx.f s.t s.alpha))
          (s.data (position ctx s key 2) / ctx.f s.t s.alpha))
        (s.data (position ctx s key 3) / ctx.f s.t s.alpha) := by
  simp [estimate, List.range_succ]

theorem estimate_of_le_max {K : Type} (ctx : SketchCtx K) (s : Sketch) (key : K)
    (hle : ∀ i < 4, s.data (position ctx s key i) / ctx.f s.t s.alpha ≤ FLT_MAX) :
    estimate ctx s key =
      min (min (min (s.data (position ctx s key 0) / ctx.f s.t s.alpha)
            (s.data (position ctx s key 1) / ctx.f s.t s.alpha))
          (s.data (position ctx s key 2) / ctx.f s.t s.alpha))
        (s.data (position ctx s key 3) / ctx.f s.t s.alpha) := by
  rw [estimate_eq_min, min_eq_right (hle 0 (by norm_num))]

theorem estimate_const {K : Type} (ctx : SketchCtx K) (s : Sketch) (key : K) (x : ℝ)
    (hx : x ≤ FLT_MAX)
    (hall : ∀ i < 4, s.data (position ctx s key i) / ctx.f s.t s.alpha = x) :
    estimate ctx s key = x := by
  rw [estimate_eq_min, hall 0 (by norm_num), hall 1 (by norm_num),
    hall 2 (by norm_num), hall 3 (by norm_num), min_eq_right hx, min_self, min_self,
    min_self]

theorem estimate_prune {K : Type} (ctx : SketchCtx K) (s : Sketch) (key : K)
    (hf : ctx.f = decayF) (hw : 0 < s.width) :
    estimate ctx (prune ctx s) key = estimate ctx s key := by
  have hp := prune_fields ctx s
  have hpos : ∀ i, position ctx (prune ctx s) key i = position ctx s key i :=
    position_congr ctx key hp.1 hp.2.1
  have hdata : ∀ i < 4, (prune ctx s).data (position ctx (prune ctx s) key i) =
      s.data (position ctx s key i) / ctx.f s.t s.alpha := by
    intro i hi
    rw [hpos i]
    simp only [prune]
    rw [if_pos (position_lt_four_mul ctx s key hw hi)]
  have hf0 : ctx.f (prune ctx s).t (prune ctx s).alpha = 1 := by
    rw [hp.2.2.2.2.2.2, hp.2.2.1, hf]
    simp [decayF]
  rw [estimate_eq_min, estimate_eq_min,
    hdata 0 (by norm_num), hdata 1 (by norm_num), hdata 2 (by norm_num),
    hdata 3 (by norm_num), hf0]
  simp

/-! ### First-attempt success and the retry chain -/

theorem updateGo_first_success {K : Type} (ctx : SketchCtx K) (s : Sketch) (key : K)
    (fuel : ℕ) (hw : 0 < s.width)
    (hg : ∀ i ∈ ([0, 1, 2, 3] : List ℕ),
      ¬(PRUNE_THRESHOLD - ctx.f (s.t + 1) s.alpha < s.data (position ctx s key i))) :
    updateGo ctx key (fuel + 1) s = some (maybeAdapt ctx (attempt ctx s key).1) := by
  have hsucc := (attempt_success_iff_guards ctx s key hw).mpr hg
  simp only [updateGo, hsucc]
  simp

/-- The retry relation of `update`: one overflow-detected attempt followed by
the prune before the `goto retry_update`. -/
def pruneRetryStep {K : Type} (ctx : SketchCtx K) (key : K) (a b : Sketch) : Prop :=
  (attempt ctx a key).2 = true ∧ b = prune ctx (attempt ctx a key).1

theorem updateGo_characterize {K : Type} (ctx : SketchCtx K) (key : K) :
    ∀ (fuel : ℕ) (s s' : Sketch), updateGo ctx key fuel s = some s' →
    ∃ s₀ : Sketch, Relation.ReflTransGen (pruneRetryStep ctx key) s s₀ ∧
      (attempt ctx s₀ key).2 = false ∧ s' = maybeAdapt ctx (attempt ctx s₀ key).1 := by
  intro fuel
  induction fuel with
  | zero => intro s s' h; simp [updateGo] at h
  | succ n ih =>
    intro s s' h
    by_cases hov : (attempt ctx s key).2 = true
    · simp only [updateGo, hov, if_pos] at h
      obtain ⟨s₀, hchain, hsucc, heq⟩ := ih _ _ h
      exact ⟨s₀, Relation.ReflTransGen.head ⟨hov, rfl⟩ hchain, hsucc, heq⟩
    · have hsucc : (attempt ctx s key).2 = false := Bool.eq_false_iff.mpr hov
      simp only [updateGo, hsucc] at h
      simp only [Bool.false_eq_true, if_false, Option.some.injEq] at h
      exact ⟨s, Relation.ReflTransGen.refl, hsucc, h.symm⟩

theorem pruneRetry_width {K : Type} (ctx : SketchCtx K) (key : K) {s s₀ : Sketch}
    (h : Relation.ReflTransGen (pruneRetryStep ctx key) s s₀) : s₀.width = s.width := by
  induction h with
  | refl => rfl
  | tail _ hstep ih =>
    rw [hstep.2, (prune_fields ctx _).1, (attempt_preserves ctx _ key).1, ih]

/-! ### The concrete run: repeated updates of key 7 on a fresh sketch -/

theorem decayF_le_exp_one {t : ℕ} (ht : t ≤ 10000) : decayF t 1 ≤ Real.exp 1 := by
  simp only [decayF, one_mul]
  refine Real.exp_le_exp.mpr ?_
  rw [div_le_one (by norm_num)]
  exact_mod_cast Nat.cast_le.mpr ht

theorem c3Sum_nonneg (k : ℕ) : 0 ≤ ∑ j in Finset.range k, decayF (j + 1) 1 :=
  Finset.sum_nonneg fun _ _ => le_of_lt (Real.exp_pos _)

theorem c3Sum_le (k : ℕ) (hk : k ≤ 10000) :
    (∑ j in Finset.range k, decayF (j + 1) 1) ≤ 30000 := by
  have he : Real.exp 1 < 2.7182818286 := Real.exp_one_lt_d9
  have hsum : (∑ j in Finset.range k, decayF (j + 1) 1) ≤ k * Real.exp 1 := by
    calc (∑ j in Finset.range k, decayF (j + 1) 1)
        ≤ ∑ _j in Finset.range k, Real.exp 1 := by
          refine Finset.sum_le_sum fun j hj => ?_
          have := Finset.mem_range.mp hj
          exact decayF_le_exp_one (by omega)
      _ = k * Real.exp 1 := by
          rw [Finset.sum_const, nsmul_eq_mul]
          simp
  have hkr : (k : ℝ) ≤ 10000 := by exact_mod_cast hk
  nlinarith [Real.exp_pos 1]

theorem c3State_width (k : ℕ) : (c3State k).width = 8 := rfl

theorem c3State_positions (k : ℕ) :
    position ctxStream (c3State k) 7 0 = 7 ∧ position ctxStream (c3State k) 7 1 = 15 ∧
    position ctxStream (c3State k) 7 2 = 23 ∧ position ctxStream (c3State k) 7 3 = 31 := by
  refine ⟨?_, ?_, ?_, ?_⟩ <;>
    norm_num [position, rowIdx, altIndex, c3State, zeroSketch, ctxStream, MUR_C,
      Nat.xor_zero]

theorem c3_guards (k : ℕ) (hk : k < 10000) :
    ∀ i ∈ ([0, 1, 2, 3] : List ℕ),
      ¬(PRUNE_THRESHOLD - ctxStream.f ((c3State k).t + 1) (c3State k).alpha <
        (c3State k).data (position ctxStream (c3State k) 7 i)) := by
  intro i _
  have hdle : ∀ p, (c3State k).data p ≤ 30000 := by
    intro p
    show c3Data k p ≤ 30000
    simp only [c3Data]
    split
    · exact c3Sum_le k (by omega)
    · norm_num
  have hinc : ctxStream.f ((c3State k).t + 1) (c3State k).alpha ≤ 3 := by
    show decayF (k + 1) 1 ≤ 3
    have := decayF_le_exp_one (t := k + 1) (by omega)
    have he : Real.exp 1 < 2.7182818286 := Real.exp_one_lt_d9
    linarith
  have := hdle (position ctxStream (c3State k) 7 i)
  simp only [PRUNE_THRESHOLD]
  push_neg
  linarith

theorem c3_step (k : ℕ) (hk : k < 10000) :
    updateGo ctxStream 7 1 (c3State k) = some (c3State (k + 1)) := by
  have hw : 0 < (c3State k).width := by rw [c3State_width]; norm_num
  have hguard := c3_guards k hk
  have hgo := updateGo_first_success ctxStream (c3State k) 7 0 hw hguard
  rw [hgo]
  have hai : (attempt ctxStream (c3State k) 7).1.adaptInterval = 0 :=
    (attempt_preserves ctxStream (c3State k) 7).2.2.2.1
  rw [maybeAdapt_zero ctxStream _ hai]
  congr 1
  have hsucc : (attempt ctxStream (c3State k) 7).2 = false :=
    (attempt_success_iff_guards ctxStream (c3State k) 7 hw).mpr hguard
  have hdata := attempt_success_data ctxStream (c3State k) 7 hw hsucc
  have ht := attempt_t_of_success ctxStream (c3State k) 7 hsucc
  have hpres := attempt_preserves ctxStream (c3State k) 7
  have hposs := c3State_positions k
  ext p
  · exact hpres.1
  · show (attempt ctxStream (c3State k) 7).1.data p = c3Data (k + 1) p
    by_cases hp : p = 7 ∨ p = 15 ∨ p = 23 ∨ p = 31
    · have hval : (attempt ctxStream (c3State k) 7).1.data p =
          c3Data k p + decayF (k + 1) 1 := by
        rcases hp with h7 | h15 | h23 | h31
        · have := hdata.1 0 (by norm_num)
          rw [hposs.1] at this
          rw [h7]
          exact this
        · have := hdata.1 1 (by norm_num)
          rw [hposs.2.1] at this
          rw [h15]
          exact this
        · have := hdata.1 2 (by norm_num)
          rw [hposs.2.2.1] at this
          rw [h23]
          exact this
        · have := hdata.1 3 (by norm_num)
          rw [hposs.2.2.2] at this
          rw [h31]
          exact this
      rw [hval]
      simp only [c3Data, if_pos hp, Finset.sum_range_succ]
    · have hnot : p ∉ ([0, 1, 2, 3] : List ℕ).map (position ctxStream (c3State k) 7) := by
        simp only [List.map, hposs.1, hposs.2.1, hposs.2.2.1, hposs.2.2.2]
        simp only [List.mem_cons, List.not_mem_nil, or_false]
        push_neg at hp ⊢
        exact hp
      have := hdata.2 p hnot
      rw [this]
      show c3Data k p = c3Data (k + 1) p
      simp only [c3Data, if_neg hp]
  · exact congrFun hpres.2.1 p
  · rw [ht]
    rfl
  · exact hpres.2.2.1
  · exact hpres.2.2.2.1
  · exact hpres.2.2.2.2.1
  · exact hpres.2.2.2.2.2

theorem c3State_zero : c3State 0 = zeroSketch := by
  ext p
  · rfl
  · show c3Data 0 p = 0
    simp only [c3Data, Finset.sum_range_zero]
    split <;> rfl
  · rfl
  · rfl
  · rfl
  · rfl
  · rfl
  · rfl

theorem c3_run (k : ℕ) (hk : k ≤ 10000) :
    updateSeq ctxStream 1 (List.replicate k 7) zeroSketch = some (c3State k) := by
  induction k with
  | zero => rw [c3State_zero]; rfl
  | succ n ih =>
    rw [List.replicate_succ', updateSeq_append, ih (by omega)]
    rw [Option.some_bind]
    show (updateGo ctxStream 7 1 (c3State n)).bind (updateSeq ctxStream 1 []) = _
    rw [c3_step n (by omega), Option.some_bind]
    rfl

/-! ### Claim theorems -/

/-- C1: if `update` detects during its increment loop that some row's counter
would exceed `PRUNE_THRESHOLD` minus the increment, every counter already
incremented in that attempt is restored to its pre-attempt value and `t` is
decremented back before `prune` runs (the rolled-back state equals the
attempt's start state), and the update is restarted; consequently a completed
`update` call reaches its final state from some retry state `s₀` by one
successful attempt in which all four counters of the key are incremented by
the same amount `f(t₀ + 1, α)` and no other cell changes. -/
theorem update_overflow_rollback_atomic {K : Type} (ctx : SketchCtx K) (s : Sketch)
    (key : K) (hw : 0 < s.width) :
    ((attempt ctx s key).2 = true → (attempt ctx s key).1 = s) ∧
    (∀ (fuel : ℕ) (s' : Sketch), updateGo ctx key fuel s = some s' →
      ∃ s₀ : Sketch, Relation.ReflTransGen (pruneRetryStep ctx key) s s₀ ∧
        (attempt ctx s₀ key).2 = false ∧
        s' = maybeAdapt ctx (attempt ctx s₀ key).1 ∧
        (∀ i ∈ ([0, 1, 2, 3] : List ℕ),
          (attempt ctx s₀ key).1.data (position ctx s₀ key i) =
            s₀.data (position ctx s₀ key i) + ctx.f (s₀.t + 1) s₀.alpha) ∧
        (∀ p, p ∉ ([0, 1, 2, 3] : List ℕ).map (position ctx s₀ key) →
          (attempt ctx s₀ key).1.data p = s₀.data p)) := by
  constructor
  · exact attempt_overflow_eq ctx s key hw
  · intro fuel s' h
    obtain ⟨s₀, hchain, hsucc, heq⟩ := updateGo_characterize ctx key fuel s s' h
    have hw₀ : 0 < s₀.width := by
      rw [pruneRetry_width ctx key hchain]
      exact hw
    have hdata := attempt_success_data ctx s₀ key hw₀ hsucc
    exact ⟨s₀, hchain, hsucc, heq, hdata.1, hdata.2⟩

/-- Witness for C1 at a concrete sketch (width 8, zero counters, key 7). -/
theorem update_overflow_rollback_atomic_witness :
    ((attempt ctxStream zeroSketch 7).2 = true →
      (attempt ctxStream zeroSketch 7).1 = zeroSketch) ∧
    (∀ (fuel : ℕ) (s' : Sketch), updateGo ctxStream 7 fuel zeroSketch = some s' →
      ∃ s₀ : Sketch, Relation.ReflTransGen (pruneRetryStep ctxStream 7) zeroSketch s₀ ∧
        (attempt ctxStream s₀ 7).2 = false ∧
        s' = maybeAdapt ctxStream (attempt ctxStream s₀ 7).1 ∧
        (∀ i ∈ ([0, 1, 2, 3] : List ℕ),
          (attempt ctxStream s₀ 7).1.data (position ctxStream s₀ 7 i) =
            s₀.data (position ctxStream s₀ 7 i) + ctxStream.f (s₀.t + 1) s₀.alpha) ∧
        (∀ p, p ∉ ([0, 1, 2, 3] : List ℕ).map (position ctxStream s₀ 7) →
          (attempt ctxStream s₀ 7).1.data p = s₀.data p)) :=
  update_overflow_rollback_atomic ctxStream zeroSketch 7 (by norm_num [zeroSketch])

/-- C2: with the decay function `f(t, α) = exp(α·t/10000)` and positive `α`
(preserved by the adapter when adaptation is enabled), after every sequence
of completed `update` calls every cell of the counter matrix lies in
`[0, PRUNE_THRESHOLD]` with `PRUNE_THRESHOLD = 16777215`. -/
theorem counter_bound_invariant {K : Type} (ctx : SketchCtx K) (fuel : ℕ)
    (keys : List K) (s s' : Sketch) (hf : ctx.f = decayF)
    (hadapt : s.adaptInterval = 0 ∨ ∀ r a, 0 < a → 0 < ctx.adapter r a)
    (halpha : 0 < s.alpha)
    (hdata : ∀ p, 0 ≤ s.data p ∧ s.data p ≤ PRUNE_THRESHOLD)
    (hrun : updateSeq ctx fuel keys s = some s') :
    ∀ p, 0 ≤ s'.data p ∧ s'.data p ≤ PRUNE_THRESHOLD :=
  (updateSeq_inv ctx fuel hf keys s s' hadapt halpha hdata hrun).2

/-- Witness for C2: one completed update of key 7 on a fresh sketch keeps
every cell inside `[0, PRUNE_THRESHOLD]`. -/
theorem counter_bound_invariant_witness :
    updateSeq ctxStream 1 [7] zeroSketch = some (c3State 1) ∧
    (∀ p, 0 ≤ (c3State 1).data p ∧ (c3State 1).data p ≤ PRUNE_THRESHOLD) := by
  have hrun : updateSeq ctxStream 1 [7] zeroSketch = some (c3State 1) := by
    have h := c3_run 1 (by norm_num)
    simpa using h
  refine ⟨hrun, counter_bound_invariant ctxStream 1 [7] zeroSketch (c3State 1) rfl
    (Or.inl rfl) ?_ ?_ hrun⟩
  · norm_num [zeroSketch]
  · intro p
    norm_num [zeroSketch, PRUNE_THRESHOLD]

/-! ### Characterisation of a collision-free repeated-key run -/

theorem decayF_zero (a : ℝ) : decayF 0 a = 1 := by
  simp [decayF]

theorem run_same_key_characterize {K : Type} (ctx : SketchCtx K) (fuel : ℕ) (key : K)
    (s0 : Sketch) (hf : ctx.f = decayF) (hw : 0 < s0.width) (ht0 : s0.t = 0)
    (hai : s0.adaptInterval = 0) (hzero : ∀ p, s0.data p = 0) :
    ∀ (n : ℕ) (s' : Sketch),
    updateSeq ctx fuel (List.replicate n key) s0 = some s' → s'.t = n →
    (∀ i ∈ ([0, 1, 2, 3] : List ℕ), s'.data (position ctx s0 key i) =
      ∑ j in Finset.range n, decayF (j + 1) s0.alpha) ∧
    (∀ p, p ∉ ([0, 1, 2, 3] : List ℕ).map (position ctx s0 key) → s'.data p = 0) ∧
    s'.width = s0.width ∧ s'.seeds = s0.seeds ∧ s'.alpha = s0.alpha := by
  have hf0 : ∀ a, ctx.f 0 a = 1 := by
    intro a
    rw [hf]
    exact decayF_zero a
  intro n
  induction n with
  | zero =>
    intro s' hrun _
    simp only [List.replicate, updateSeq, Option.some.injEq] at hrun
    subst hrun
    exact ⟨fun i _ => by rw [hzero, Finset.sum_range_zero], fun p _ => hzero p,
      rfl, rfl, rfl⟩
  | succ n ih =>
    intro s' hrun htn
    rw [List.replicate_succ', updateSeq_append] at hrun
    cases hseq : updateSeq ctx fuel (List.replicate n key) s0 with
    | none => rw [hseq] at hrun; simp at hrun
    | some sn =>
      rw [hseq, Option.some_bind] at hrun
      simp only [updateSeq] at hrun
      cases hgo : updateGo ctx key fuel sn with
      | none => rw [hgo] at hrun; simp at hrun
      | some s1 =>
        rw [hgo] at hrun
        rw [Option.some_bind] at hrun
        simp only [updateSeq, Option.some.injEq] at hrun
        subst hrun
        have hpres := updateSeq_preserves ctx fuel (List.replicate n key) s0 sn hseq
        have hwn : 0 < sn.width := by rw [hpres.1]; exact hw
        have hain : sn.adaptInterval = 0 := by rw [hpres.2.2.1]; exact hai
        have htle : sn.t ≤ n := by
          have := updateSeq_t_le ctx fuel hf0 (List.replicate n key) s0 sn hw hai hseq
          rw [ht0, List.length_replicate] at this
          omega
        have hgot := updateGo_t ctx key hf0 fuel sn s1 hwn hain hgo
        have htn' : sn.t = n := by
          have := hgot.1
          omega
        have heq := hgot.2 (by omega)
        have hsucc := heq.1
        have hs' := heq.2
        have ihn := ih sn hseq htn'
        have hposc : ∀ i, position ctx sn key i = position ctx s0 key i :=
          position_congr ctx key hpres.1 hpres.2.1
        have hdata := attempt_success_data ctx sn key hwn hsucc
        have hinc : ctx.f (sn.t + 1) sn.alpha = decayF (n + 1) s0.alpha := by
          rw [hf, htn', hpres.2.2.2 hai]
        have hattp := attempt_preserves ctx sn key
        refine ⟨?_, ?_, ?_, ?_, ?_⟩
        · intro i hi
          rw [hs', ← hposc i]
          rw [hdata.1 i hi, hinc, hposc i, ihn.1 i hi, Finset.sum_range_succ]
        · intro p hp
          have hp' : p ∉ ([0, 1, 2, 3] : List ℕ).map (position ctx sn key) := by
            intro hc
            apply hp
            simp only [List.mem_map] at hc ⊢
            obtain ⟨a, ha, hpa⟩ := hc
            exact ⟨a, ha, by rw [← hposc a, hpa]⟩
          rw [hs', hdata.2 p hp']
          exact ihn.2.1 p hp
        · rw [hs', hattp.1, ihn.2.2.1]
        · rw [hs', hattp.2.1, ihn.2.2.2.1]
        · rw [hs', hattp.2.2.1, ihn.2.2.2.2]

/-- C3: `estimate` returns the minimum over the four rows of
`M[i][idx_i] / f(t, α)`; and for a key updated `n` times on a fresh sketch
with no prune (witnessed by `t = n`), `estimate` equals the exact
time-decayed count `(Σ_{j=1..n} f(j, α)) / f(n, α)`, while a key whose four
row positions are disjoint from the updated key's estimates to `0`. -/
theorem estimate_formula_and_exact {K : Type} (ctx : SketchCtx K) (fuel n : ℕ)
    (key key' : K) (s0 s' : Sketch) (hf : ctx.f = decayF) (hw : 0 < s0.width)
    (halpha : 0 < s0.alpha) (ht0 : s0.t = 0) (hai : s0.adaptInterval = 0)
    (hzero : ∀ p, s0.data p = 0)
    (hrun : updateSeq ctx fuel (List.replicate n key) s0 = some s') (htn : s'.t = n)
    (hdisj : ∀ i ∈ ([0, 1, 2, 3] : List ℕ), ∀ j ∈ ([0, 1, 2, 3] : List ℕ),
      position ctx s0 key' i ≠ position ctx s0 key j) :
    (∀ (sx : Sketch) (kx : K),
      (∀ i < 4, sx.data (position ctx sx kx i) / ctx.f sx.t sx.alpha ≤ FLT_MAX) →
      estimate ctx sx kx =
        min (min (min (sx.data (position ctx sx kx 0) / ctx.f sx.t sx.alpha)
              (sx.data (position ctx sx kx 1) / ctx.f sx.t sx.alpha))
            (sx.data (position ctx sx kx 2) / ctx.f sx.t sx.alpha))
          (sx.data (position ctx sx kx 3) / ctx.f sx.t sx.alpha)) ∧
    estimate ctx s' key =
      (∑ j in Finset.range n, decayF (j + 1) s0.alpha) / decayF n s0.alpha ∧
    estimate ctx s' key' = 0 := by
  have hchar := run_same_key_characterize ctx fuel key s0 hf hw ht0 hai hzero n s'
    hrun htn
  have hposc : ∀ k i, position ctx s' k i = position ctx s0 k i := fun k =>
    position_congr ctx k hchar.2.2.1 hchar.2.2.2.1
  have hft : ctx.f s'.t s'.alpha = decayF n s0.alpha := by
    rw [hf, htn, hchar.2.2.2.2]
  have hd1 : 1 ≤ decayF n s0.alpha := by
    refine Real.one_le_exp ?_
    positivity
  have hSnonneg : 0 ≤ ∑ j in Finset.range n, decayF (j + 1) s0.alpha :=
    Finset.sum_nonneg fun _ _ => le_of_lt (Real.exp_pos _)
  have hSle : (∑ j in Finset.range n, decayF (j + 1) s0.alpha) ≤ PRUNE_THRESHOLD := by
    have hinv := updateSeq_inv ctx fuel hf (List.replicate n key) s0 s' (Or.inl hai)
      halpha (fun p => by rw [hzero]; norm_num [PRUNE_THRESHOLD])
      hrun
    have := (hinv.2 (position ctx s0 key 0)).2
    rwa [hchar.1 0 (by norm_num)] at this
  refine ⟨estimate_of_le_max ctx, ?_, ?_⟩
  · refine estimate_const ctx s' key _ ?_ ?_
    · have hdiv : (∑ j in Finset.range n, decayF (j + 1) s0.alpha) / decayF n s0.alpha ≤
          ∑ j in Finset.range n, decayF (j + 1) s0.alpha := div_le_self hSnonneg hd1
      have : PRUNE_THRESHOLD ≤ FLT_MAX := by norm_num [PRUNE_THRESHOLD, FLT_MAX]
      linarith
    · intro i hi
      rw [hposc key i, hft, hchar.1 i (by
        interval_cases i <;> norm_num)]
  · refine estimate_const ctx s' key' 0 ?_ ?_
    · norm_num [FLT_MAX]
    · intro i hi
      rw [hposc key' i, hft]
      have hmem : position ctx s0 key' i ∉
          ([0, 1, 2, 3] : List ℕ).map (position ctx s0 key) := by
        simp only [List.mem_map, not_exists]
        intro j hj
        rcases hj with ⟨hjmem, hje⟩
        exact hdisj i (by interval_cases i <;> norm_num) j hjmem hje.symm
      rw [hchar.2.1 _ hmem, zero_div]

/-- Witness for C3: five updates of key 7 on a fresh width-8 sketch with the
identity hash; key 0 hits disjoint row positions and estimates to zero. -/
theorem estimate_formula_and_exact_witness :
    updateSeq ctxStream 1 (List.replicate 5 7) zeroSketch = some (c3State 5) ∧
    estimate ctxStream (c3State 5) 7 =
      (∑ j in Finset.range 5, decayF (j + 1) zeroSketch.alpha) /
        decayF 5 zeroSketch.alpha ∧
    estimate ctxStream (c3State 5) 0 = 0 := by
  have hrun := c3_run 5 (by norm_num)
  have h := estimate_formula_and_exact ctxStream 1 5 7 0 zeroSketch (c3State 5) rfl
    (by norm_num [zeroSketch]) (by norm_num [zeroSketch]) rfl rfl (fun _ => rfl)
    hrun rfl (by decide)
  exact ⟨hrun, h.2.1, h.2.2⟩

/-- C4 (amended): the row indices used by `update` and `estimate` satisfy the
chained recurrence `idx_0 = hash(key) mod w`,
`idx_{i+1} = (idx_i XOR (seed_{i+1} · C mod 2^64)) mod w` — each derived from
the previous row's index (so the claimed form `(idx_0 XOR (seed_i · C)) mod w`
holds for row 1 but not in general for rows 2 and 3); row `i` accesses flat
position `i·w + idx_i`. -/
theorem row_indices_chained {K : Type} (ctx : SketchCtx K) (s : Sketch) (key : K) :
    rowIdx ctx s key 0 = ctx.hash key % s.width ∧
    (∀ i < 3, rowIdx ctx s key (i + 1) =
      (rowIdx ctx s key i ^^^ (s.seeds (i + 1) * MUR_C % 2 ^ 64)) % s.width) ∧
    rowIdx ctx s key 1 =
      (ctx.hash key % s.width ^^^ (s.seeds 1 * MUR_C % 2 ^ 64)) % s.width ∧
    (∀ i, position ctx s key i = i * s.width + rowIdx ctx s key i) :=
  ⟨rfl, fun _ _ => rfl, rfl, fun _ => rfl⟩

/-- Witness for C4 (amended) at a concrete sketch. -/
theorem row_indices_chained_witness :
    rowIdx ctxStream sketchC4 0 0 = ctxStream.hash 0 % sketchC4.width ∧
    (∀ i < 3, rowIdx ctxStream sketchC4 0 (i + 1) =
      (rowIdx ctxStream sketchC4 0 i ^^^ (sketchC4.seeds (i + 1) * MUR_C % 2 ^ 64)) %
        sketchC4.width) ∧
    rowIdx ctxStream sketchC4 0 1 =
      (ctxStream.hash 0 % sketchC4.width ^^^ (sketchC4.seeds 1 * MUR_C % 2 ^ 64)) %
        sketchC4.width ∧
    (∀ i, position ctxStream sketchC4 0 i = i * sketchC4.width + rowIdx ctxStream sketchC4 0 i) :=
  row_indices_chained ctxStream sketchC4 0

/-- C4 counterexample: with seeds `(0, 1, 1, 0)` and a key at index 0 of a
width-8 sketch, the row-2 index differs from `(idx_0 XOR (seed_2 · C)) mod w`
(the chained index is 0, the claimed one is 5). -/
theorem row_index_two_not_from_idx0 :
    rowIdx ctxStream sketchC4 0 2 ≠
      (rowIdx ctxStream sketchC4 0 0 ^^^ (sketchC4.seeds 2 * MUR_C % 2 ^ 64)) %
        sketchC4.width := by
  decide

/-- C5: `prune` divides every cell of the matrix by `f(t, α)` and resets `t`
to 0; every estimate is unchanged by a prune, hence the sign of
`estimate(A) − estimate(B)` is preserved. -/
theorem prune_rescales_and_preserves_order {K : Type} (ctx : SketchCtx K) (s : Sketch)
    (hf : ctx.f = decayF) (hw : 0 < s.width) :
    (∀ p, p < 4 * s.width → (prune ctx s).data p = s.data p / decayF s.t s.alpha) ∧
    (prune ctx s).t = 0 ∧
    (∀ A B : K, estimate ctx (prune ctx s) A = estimate ctx s A ∧
      Real.sign (estimate ctx (prune ctx s) A - estimate ctx (prune ctx s) B) =
        Real.sign (estimate ctx s A - estimate ctx s B)) := by
  refine ⟨?_, rfl, ?_⟩
  · intro p hp
    simp only [prune, if_pos hp, hf]
  · intro A B
    have hA := estimate_prune ctx s A hf hw
    have hB := estimate_prune ctx s B hf hw
    exact ⟨hA, by rw [hA, hB]⟩

/-- Witness for C5 at a concrete sketch. -/
theorem prune_rescales_and_preserves_order_witness :
    (∀ p, p < 4 * zeroSketch.width →
      (prune ctxStream zeroSketch).data p =
        zeroSketch.data p / decayF zeroSketch.t zeroSketch.alpha) ∧
    (prune ctxStream zeroSketch).t = 0 ∧
    (∀ A B : ℕ, estimate ctxStream (prune ctxStream zeroSketch) A =
        estimate ctxStream zeroSketch A ∧
      Real.sign (estimate ctxStream (prune ctxStream zeroSketch) A -
          estimate ctxStream (prune ctxStream zeroSketch) B) =
        Real.sign (estimate ctxStream zeroSketch A - estimate ctxStream zeroSketch B)) :=
  prune_rescales_and_preserves_order ctxStream zeroSketch rfl (by norm_num [zeroSketch])

/-- C6: when adaptation is enabled and the adapt counter reaches the
interval, the update hook invokes `adapt`, which prunes first, computes
`reward = sum / adapt_interval`, resets `sum` to 0, replaces `α` by
`adapter(reward, α)` and resets the adapt counter to 0; below the interval
only the counter is incremented, and a successful update attempt always
funnels through this hook. -/
theorem adapt_trigger_and_semantics {K : Type} (ctx : SketchCtx K) (s : Sketch)
    (hi : s.adaptInterval ≠ 0) :
    (s.adaptInterval ≤ s.adaptCounter + 1 →
      maybeAdapt ctx s =
        { prune ctx { s with adaptCounter := s.adaptCounter + 1 } with
          sum := 0
          alpha := ctx.adapter (s.sum / (s.adaptInterval : ℝ)) s.alpha
          adaptCounter := 0 }) ∧
    (s.adaptCounter + 1 < s.adaptInterval →
      maybeAdapt ctx s = { s with adaptCounter := s.adaptCounter + 1 }) ∧
    (∀ (fuel : ℕ) (key : K), (attempt ctx s key).2 = false →
      updateGo ctx key (fuel + 1) s = some (maybeAdapt ctx (attempt ctx s key).1)) := by
  refine ⟨?_, ?_, ?_⟩
  · intro hc
    simp only [maybeAdapt, if_pos hi, if_pos hc]
    rfl
  · intro hc
    simp only [maybeAdapt, if_pos hi, if_neg (not_le.mpr hc)]
  · intro fuel key hsucc
    simp only [updateGo, hsucc]
    simp

/-- Witness for C6 at a sketch with `adapt_interval = 2`, counter 1. -/
theorem adapt_trigger_and_semantics_witness :
    (sketchC6.adaptInterval ≤ sketchC6.adaptCounter + 1 →
      maybeAdapt ctxStream sketchC6 =
        { prune ctxStream { sketchC6 with adaptCounter := sketchC6.adaptCounter + 1 } with
          sum := 0
          alpha := ctxStream.adapter (sketchC6.sum / (sketchC6.adaptInterval : ℝ))
            sketchC6.alpha
          adaptCounter := 0 }) ∧
    (sketchC6.adaptCounter + 1 < sketchC6.adaptInterval →
      maybeAdapt ctxStream sketchC6 =
        { sketchC6 with adaptCounter := sketchC6.adaptCounter + 1 }) ∧
    (∀ (fuel : ℕ) (key : ℕ), (attempt ctxStream sketchC6 key).2 = false →
      updateGo ctxStream key (fuel + 1) sketchC6 =
        some (maybeAdapt ctxStream (attempt ctxStream sketchC6 key).1)) :=
  adapt_trigger_and_semantics ctxStream sketchC6 (by norm_num [sketchC6, zeroSketch])

/-- C7 (amended): the constructor truncates, so Window capacity is
`⌊C·0.01⌋` (not the ceiling), Probation is `⌊(C − Window)·0.2⌋`, Protected is
the remainder `C − Window − Probation`, and the three capacities always sum
to `C`; e.g. at `C = 100` they are 1, 19 and 80. -/
theorem wtiny_segment_caps (c : ℕ) :
    wtinyWindowCap c = ⌊(c : ℚ) / 100⌋₊ ∧
    wtinyProbationCap c = ⌊((c - wtinyWindowCap c : ℕ) : ℚ) / 5⌋₊ ∧
    wtinyProtectedCap c = c - wtinyWindowCap c - wtinyProbationCap c ∧
    wtinyWindowCap c + wtinyProbationCap c + wtinyProtectedCap c = c ∧
    wtinyWindowCap 100 = 1 ∧ wtinyProbationCap 100 = 19 ∧
    wtinyProtectedCap 100 = 80 := by
  have hW : wtinyWindowCap c ≤ c := by
    have h1 : ((c : ℚ)) * (1 / 100) ≤ (c : ℚ) := by
      rw [mul_one_div]
      exact div_le_self (by positivity) (by norm_num)
    calc wtinyWindowCap c ≤ ⌊(c : ℚ)⌋₊ := Nat.floor_mono h1
      _ = c := Nat.floor_natCast c
  have hP : wtinyProbationCap c ≤ c - wtinyWindowCap c := by
    have h1 : ((c - wtinyWindowCap c : ℕ) : ℚ) * (1 / 5) ≤
        ((c - wtinyWindowCap c : ℕ) : ℚ) := by
      rw [mul_one_div]
      exact div_le_self (by positivity) (by norm_num)
    calc wtinyProbationCap c ≤ ⌊((c - wtinyWindowCap c : ℕ) : ℚ)⌋₊ := Nat.floor_mono h1
      _ = c - wtinyWindowCap c := Nat.floor_natCast _
  have h100W : wtinyWindowCap 100 = 1 := by
    rw [wtinyWindowCap, Nat.floor_eq_iff (by norm_num)]
    norm_num
  have h100P : wtinyProbationCap 100 = 19 := by
    rw [wtinyProbationCap, h100W, show ((100 : ℕ) - 1 : ℕ) = 99 from rfl,
      Nat.floor_eq_iff (by norm_num)]
    norm_num
  have h100Prot : wtinyProtectedCap 100 = 80 := by
    rw [wtinyProtectedCap, h100W, h100P]
  refine ⟨by rw [wtinyWindowCap, mul_one_div], by rw [wtinyProbationCap, mul_one_div],
    rfl, ?_, h100W, h100P, h100Prot⟩
  show wtinyWindowCap c + wtinyProbationCap c +
    (c - wtinyWindowCap c - wtinyProbationCap c) = c
  omega

/-- C7 counterexample: at capacity 150 the constructor's Window capacity is
`⌊1.5⌋ = 1`, not the claimed `⌈150 · 0.01⌉ = 2`. -/
theorem wtiny_window_not_ceil : wtinyWindowCap 150 ≠ ⌈(150 : ℚ) * (1 / 100)⌉₊ := by
  rw [wtinyWindowCap,
    show ((150 : ℕ) : ℚ) * (1 / 100) = (150 : ℚ) * (1 / 100) by norm_num,
    Nat.floor_eq_iff (by norm_num) (n := 1) |>.mpr (by norm_num),
    Nat.ceil_eq_iff (by norm_num) (n := 2) |>.mpr (by norm_num)]
  norm_num

/-! ### The ε-greedy adapter -/

theorem maxElemIdx_spec (est : ℕ → ℚ) (n : ℕ) (hn : 0 < n) :
    maxElemIdx est n < n ∧
    (∀ j < n, est j ≤ est (maxElemIdx est n)) ∧
    (∀ j < maxElemIdx est n, est j < est (maxElemIdx est n)) := by
  induction n with
  | zero => omega
  | succ m ih =>
    by_cases hm : m = 0
    · subst hm
      have h1 : maxElemIdx est 1 = 0 := by
        simp [maxElemIdx, List.range_succ]
      rw [h1]
      refine ⟨by norm_num, fun j hj => ?_, fun j hj => by omega⟩
      interval_cases j
      exact le_refl _
    · have hm' : 0 < m := Nat.pos_of_ne_zero hm
      have ihm := ih hm'
      have hfold : maxElemIdx est (m + 1) =
          if est (maxElemIdx est m) < est m then m else maxElemIdx est m := by
        simp [maxElemIdx, List.range_succ, List.foldl_append]
      rw [hfold]
      by_cases h : est (maxElemIdx est m) < est m
      · rw [if_pos h]
        refine ⟨by omega, fun j hj => ?_, fun j hj => ?_⟩
        · rcases Nat.lt_succ_iff_lt_or_eq.mp hj with hj' | hj'
          · exact le_trans (ihm.2.1 j hj') (le_of_lt h)
          · rw [hj']
        · exact lt_of_le_of_lt (ihm.2.1 j hj) h
      · rw [if_neg h]
        push_neg at h
        refine ⟨by omega, fun j hj => ?_, ihm.2.2⟩
        rcases Nat.lt_succ_iff_lt_or_eq.mp hj with hj' | hj'
        · exact ihm.2.1 j hj'
        · rw [hj']
          exact h

/-- C8: on a non-first call the ε-greedy adapter updates the current arm's
estimate by `Q_a ← Q_a + step·(reward − Q_a)` (step = the constant, or the
step function of the incremented pull count, which is `1/n_a` by default),
leaves the other estimates unchanged, then explores to the uniform draw when
`u < ε` and otherwise exploits the argmax with ties broken to the smallest
index; the chosen arm's α is what the operator call returns. -/
theorem eg_adapt_step (obj u : ℚ) (randArm : ℕ) (st : EGState) :
    (∀ c, st.stepRule = Sum.inl c →
      (egAdapt obj u randArm st).estimates st.currentArm =
        st.estimates st.currentArm + c * (obj - st.estimates st.currentArm) ∧
      (egAdapt obj u randArm st).counts = st.counts) ∧
    (∀ f, st.stepRule = Sum.inr f →
      (egAdapt obj u randArm st).estimates st.currentArm =
        st.estimates st.currentArm +
          f (st.counts st.currentArm + 1) * (obj - st.estimates st.currentArm) ∧
      (egAdapt obj u randArm st).counts st.currentArm = st.counts st.currentArm + 1 ∧
      (∀ j, j ≠ st.currentArm → (egAdapt obj u randArm st).counts j = st.counts j)) ∧
    (∀ j, j ≠ st.currentArm →
      (egAdapt obj u randArm st).estimates j = st.estimates j) ∧
    (u < st.epsilon → (egAdapt obj u randArm st).currentArm = randArm) ∧
    (¬(u < st.epsilon) →
      (egAdapt obj u randArm st).currentArm =
        maxElemIdx (egAdapt obj u randArm st).estimates st.numArms ∧
      (0 < st.numArms →
        (egAdapt obj u randArm st).currentArm < st.numArms ∧
        (∀ j < st.numArms, (egAdapt obj u randArm st).estimates j ≤
          (egAdapt obj u randArm st).estimates (egAdapt obj u randArm st).currentArm) ∧
        (∀ j < (egAdapt obj u randArm st).currentArm,
          (egAdapt obj u randArm st).estimates j <
            (egAdapt obj u randArm st).estimates (egAdapt obj u randArm st).currentArm))) ∧
    (∀ (arms : ℕ → ℝ) (dev : ℕ),
      (egOpCall arms dev u randArm obj ⟨st, false⟩).1 =
        arms (egAdapt obj u randArm st).currentArm) := by
  refine ⟨?_, ?_, ?_, ?_, ?_, ?_⟩
  · intro c hc
    simp [egAdapt, hc]
  · intro f hf
    refine ⟨?_, ?_, ?_⟩
    · simp [egAdapt, hf]
    · simp [egAdapt, hf]
    · intro j hj
      simp [egAdapt, hf, Function.update_noteq hj]
  · intro j hj
    simp [egAdapt, Function.update_noteq hj]
  · intro hu
    simp [egAdapt, hu]
  · intro hu
    constructor
    · simp [egAdapt, hu]
    · intro hn
      have hspec := maxElemIdx_spec (egAdapt obj u randArm st).estimates st.numArms hn
      have harm : (egAdapt obj u randArm st).currentArm =
          maxElemIdx (egAdapt obj u randArm st).estimates st.numArms := by
        simp [egAdapt, hu]
      rw [harm]
      exact hspec
  · intro arms dev
    simp [egOpCall]

/-- Witness for C8 on a concrete two-arm adapter state with the default
`1/n` step rule (exploit branch, `u = 3/4 ≥ ε = 1/2`). -/
theorem eg_adapt_step_witness :
    (∀ c, egStateA.stepRule = Sum.inl c →
      (egAdapt 1 (3 / 4) 1 egStateA).estimates egStateA.currentArm =
        egStateA.estimates egStateA.currentArm +
          c * (1 - egStateA.estimates egStateA.currentArm) ∧
      (egAdapt 1 (3 / 4) 1 egStateA).counts = egStateA.counts) ∧
    (∀ f, egStateA.stepRule = Sum.inr f →
      (egAdapt 1 (3 / 4) 1 egStateA).estimates egStateA.currentArm =
        egStateA.estimates egStateA.currentArm +
          f (egStateA.counts egStateA.currentArm + 1) *
            (1 - egStateA.estimates egStateA.currentArm) ∧
      (egAdapt 1 (3 / 4) 1 egStateA).counts egStateA.currentArm =
        egStateA.counts egStateA.currentArm + 1 ∧
      (∀ j, j ≠ egStateA.currentArm →
        (egAdapt 1 (3 / 4) 1 egStateA).counts j = egStateA.counts j)) ∧
    (∀ j, j ≠ egStateA.currentArm →
      (egAdapt 1 (3 / 4) 1 egStateA).estimates j = egStateA.estimates j) ∧
    ((3 / 4 : ℚ) < egStateA.epsilon →
      (egAdapt 1 (3 / 4) 1 egStateA).currentArm = 1) ∧
    (¬((3 / 4 : ℚ) < egStateA.epsilon) →
      (egAdapt 1 (3 / 4) 1 egStateA).currentArm =
        maxElemIdx (egAdapt 1 (3 / 4) 1 egStateA).estimates egStateA.numArms ∧
      (0 < egStateA.numArms →
        (egAdapt 1 (3 / 4) 1 egStateA).currentArm < egStateA.numArms ∧
        (∀ j < egStateA.numArms, (egAdapt 1 (3 / 4) 1 egStateA).estimates j ≤
          (egAdapt 1 (3 / 4) 1 egStateA).estimates
            (egAdapt 1 (3 / 4) 1 egStateA).currentArm) ∧
        (∀ j < (egAdapt 1 (3 / 4) 1 egStateA).currentArm,
          (egAdapt 1 (3 / 4) 1 egStateA).estimates j <
            (egAdapt 1 (3 / 4) 1 egStateA).estimates
              (egAdapt 1 (3 / 4) 1 egStateA).currentArm))) ∧
    (∀ (arms : ℕ → ℝ) (dev : ℕ),
      (egOpCall arms dev (3 / 4) 1 1 ⟨egStateA, false⟩).1 =
        arms (egAdapt 1 (3 / 4) 1 egStateA).currentArm) :=
  eg_adapt_step 1 (3 / 4) 1 egStateA

/-- C9 (amended): the first `operator()` call draws its arm from a freshly
seeded RNG inside `disturb_param` and ignores the member RNG entirely, while
every subsequent call uses only the member RNG and ignores the fresh-device
entropy; the adapter is a deterministic function of these two entropy
sources, but the first call's output is not determined by the
construction-time member RNG state. -/
theorem eg_rng_structure (arms : ℕ → ℝ) (dev dev' : ℕ) (u u' : ℚ)
    (randArm randArm' : ℕ) (obj : ℚ) (a : EGOp) :
    (a.firstUpdate = true →
      egOpCall arms dev u randArm obj a = egOpCall arms dev u' randArm' obj a) ∧
    (a.firstUpdate = false →
      egOpCall arms dev u randArm obj a = egOpCall arms dev' u randArm obj a) := by
  constructor <;> intro h <;> simp [egOpCall, h]

/-- Witness for C9 (amended). -/
theorem eg_rng_structure_witness :
    ((⟨egStateA, true⟩ : EGOp).firstUpdate = true →
      egOpCall (fun i => (i : ℝ)) 0 0 0 1 ⟨egStateA, true⟩ =
        egOpCall (fun i => (i : ℝ)) 0 1 1 1 ⟨egStateA, true⟩) ∧
    ((⟨egStateA, true⟩ : EGOp).firstUpdate = false →
      egOpCall (fun i => (i : ℝ)) 0 0 0 1 ⟨egStateA, true⟩ =
        egOpCall (fun i => (i : ℝ)) 1 0 0 1 ⟨egStateA, true⟩) :=
  eg_rng_structure (fun i => (i : ℝ)) 0 1 0 1 0 1 1 ⟨egStateA, true⟩

/-- C9 counterexample: two runs over the same call sequence with identical
member-RNG draws but different fresh-device draws on the first call return
different α sequences, so the outputs are not a function of a single shared
RNG seeded at construction. -/
theorem eg_first_call_not_shared_rng :
    (egOpRun (fun i => (i : ℝ)) [(0, 0, 0, 0)] ⟨egStateA, true⟩).1 ≠
      (egOpRun (fun i => (i : ℝ)) [(1, 0, 0, 0)] ⟨egStateA, true⟩).1 := by
  simp only [egOpRun, egOpCall, egStateA]
  norm_num

/-! ### History recording is observationally transparent -/

theorem adapterCall_mk {O P S : Type} (disturb : P → S → P × S)
    (adaptF : O → O → P → P → S → P × S) (inner : S) (first : Bool) (lobj : O)
    (lparam : P) (rcd : Bool) (hist : List (O × P)) (obj : O) (param : P) :
    adapterCall disturb adaptF ⟨inner, first, lobj, lparam, rcd, hist⟩ obj param =
      ((if first then disturb param inner
          else adaptF obj lobj param lparam inner).1,
        ⟨(if first then disturb param inner
            else adaptF obj lobj param lparam inner).2,
          if first then false else first, obj, param, rcd,
          if rcd then
            hist ++ [(obj, (if first then disturb param inner
              else adaptF obj lobj param lparam inner).1)]
          else hist⟩) := by
  cases first <;> cases rcd <;> simp [adapterCall]

theorem adapterRun_recording {O P S : Type} (disturb : P → S → P × S)
    (adaptF : O → O → P → P → S → P × S) :
    ∀ (calls : List (O × P)) (inner : S) (first : Bool) (lobj : O) (lparam : P)
      (h1 h2 : List (O × P)),
    (adapterRun disturb adaptF calls ⟨inner, first, lobj, lparam, true, h1⟩).1 =
      (adapterRun disturb adaptF calls ⟨inner, first, lobj, lparam, false, h2⟩).1 ∧
    (adapterRun disturb adaptF calls ⟨inner, first, lobj, lparam, true, h1⟩).2 =
      { (adapterRun disturb adaptF calls ⟨inner, first, lobj, lparam, false, h2⟩).2 with
        recording := true
        history := h1 ++ List.zip (calls.map Prod.fst)
          (adapterRun disturb adaptF calls ⟨inner, first, lobj, lparam, true, h1⟩).1 } ∧
    (adapterRun disturb adaptF calls
      ⟨inner, first, lobj, lparam, false, h2⟩).2.recording = false ∧
    (adapterRun disturb adaptF calls
      ⟨inner, first, lobj, lparam, false, h2⟩).2.history = h2 := by
  intro calls
  induction calls with
  | nil =>
    intro inner first lobj lparam h1 h2
    simp [adapterRun]
  | cons cp rest ih =>
    intro inner first lobj lparam h1 h2
    obtain ⟨obj, param⟩ := cp
    simp only [adapterRun, adapterCall_mk, eq_self_iff_true, if_true,
      Bool.false_eq_true, if_false]
    have ihr := ih (if first then disturb param inner
        else adaptF obj lobj param lparam inner).2
      (if first then false else first) obj param
      (h1 ++ [(obj, (if first then disturb param inner
        else adaptF obj lobj param lparam inner).1)]) h2
    refine ⟨?_, ?_, ?_, ?_⟩
    · simp only [ihr.1]
    · rw [ihr.2.1]
      simp only [List.map_cons, List.zip_cons_cons, List.append_assoc,
        List.cons_append, List.nil_append]
    · exact ihr.2.2.1
    · exact ihr.2.2.2

/-- C10: whether history recording is active does not affect an adapter's
outputs — over any call sequence the returned parameters and the final
non-history adapter state are identical with recording on and off; recording
only appends the `(objective, returned parameter)` pairs to the history, and
with recording off the history is untouched. -/
theorem recording_does_not_affect_outputs {O P S : Type} (disturb : P → S → P × S)
    (adaptF : O → O → P → P → S → P × S) (calls : List (O × P)) (inner : S)
    (first : Bool) (lobj : O) (lparam : P) (h1 h2 : List (O × P)) :
    (adapterRun disturb adaptF calls ⟨inner, first, lobj, lparam, true, h1⟩).1 =
      (adapterRun disturb adaptF calls ⟨inner, first, lobj, lparam, false, h2⟩).1 ∧
    (adapterRun disturb adaptF calls ⟨inner, first, lobj, lparam, true, h1⟩).2 =
      { (adapterRun disturb adaptF calls ⟨inner, first, lobj, lparam, false, h2⟩).2 with
        recording := true
        history := h1 ++ List.zip (calls.map Prod.fst)
          (adapterRun disturb adaptF calls ⟨inner, first, lobj, lparam, true, h1⟩).1 } ∧
    (adapterRun disturb adaptF calls
      ⟨inner, first, lobj, lparam, false, h2⟩).2.recording = false ∧
    (adapterRun disturb adaptF calls
      ⟨inner, first, lobj, lparam, false, h2⟩).2.history = h2 :=
  adapterRun_recording disturb adaptF calls inner first lobj lparam h1 h2
